import Mathlib

/-!
Verification development for the argo-proxy repository.

Shallow embedding of the pure cores of:
* `src/argoproxy/utils/stream_decoder.py` (UTF-8 safe stream decoder),
* `src/argoproxy/utils/image_processing.py` (image validation and pipeline),
* `src/argoproxy/llmir/{atomic_ops,complex_ops}.py` (IR ↔ Argo converters),
* `src/argoproxy/tool_calls/google_helpers.py` (Gemini tool-call converter),
* `src/argoproxy/tool_calls/leaked_tool_parser.py` (leaked tool extraction),
* the model registry resolution (spec §4.D, pinned by test_model_resolution.py).

Bytes are modelled as `Nat` (each < 256 where relevant), text as `List Char`
or `String`, and network / IO effects as explicit function parameters.
-/

namespace ArgoProxy

/-! ### UTF-8 decoding (model of Python `bytes.decode("utf-8")`)

`utf8DecodeOne` reads one scalar value from the front of a byte list,
implementing the strict UTF-8 validation CPython applies: continuation
bytes in `0x80-0xBF`, no overlong forms (lead `0xC0`/`0xC1` rejected,
`0xE0` requires `0xA0-0xBF`, `0xF0` requires `0x90-0xBF`), no surrogates
(`0xED` requires `0x80-0x9F`) and nothing above `U+10FFFF` (`0xF4`
requires `0x80-0x8F`). -/

/-- Is `b` a UTF-8 continuation byte (`10xxxxxx`)? -/
def isCont (b : Nat) : Bool := 0x80 ≤ b && b ≤ 0xBF

/-- Lower bound for the first continuation byte after lead `b0`. -/
def cont1Lo (b0 : Nat) : Nat :=
  if b0 = 0xE0 then 0xA0 else if b0 = 0xF0 then 0x90 else 0x80

/-- Upper bound for the first continuation byte after lead `b0`. -/
def cont1Hi (b0 : Nat) : Nat :=
  if b0 = 0xED then 0x9F else if b0 = 0xF4 then 0x8F else 0xBF

/-- Decode one UTF-8 scalar value from the front of a byte list, returning
the scalar and the remaining bytes, or `none` if the front is not a
complete valid UTF-8 sequence. -/
def utf8DecodeOne : List Nat → Option (Nat × List Nat)
  | [] => none
  | b0 :: r =>
    if b0 ≤ 0x7F then some (b0, r)
    else if 0xC2 ≤ b0 ∧ b0 ≤ 0xDF then
      match r with
      | b1 :: r1 =>
        if isCont b1 = true then some ((b0 - 0xC0) * 0x40 + (b1 - 0x80), r1) else none
      | [] => none
    else if 0xE0 ≤ b0 ∧ b0 ≤ 0xEF then
      match r with
      | b1 :: b2 :: r2 =>
        if (cont1Lo b0 ≤ b1 ∧ b1 ≤ cont1Hi b0) ∧ isCont b2 = true then
          some ((b0 - 0xE0) * 0x1000 + (b1 - 0x80) * 0x40 + (b2 - 0x80), r2)
        else none
      | _ => none
    else if 0xF0 ≤ b0 ∧ b0 ≤ 0xF4 then
      match r with
      | b1 :: b2 :: b3 :: r3 =>
        if (cont1Lo b0 ≤ b1 ∧ b1 ≤ cont1Hi b0) ∧ isCont b2 = true ∧ isCont b3 = true then
          some ((b0 - 0xF0) * 0x40000 + (b1 - 0x80) * 0x1000 + (b2 - 0x80) * 0x40
                 + (b3 - 0x80), r3)
        else none
      | _ => none
    else none

/-- Fuel-indexed full decode; `utf8DecodeAll` instantiates the fuel with the
length of the list, which suffices because each step consumes at least one
byte. `none` means a `UnicodeDecodeError` in the Python source. -/
def utf8DecodeAllF : Nat → List Nat → Option (List Nat)
  | _, [] => some []
  | 0, _ :: _ => none
  | f + 1, l =>
    match utf8DecodeOne l with
    | none => none
    | some (c, r) => (utf8DecodeAllF f r).map (c :: ·)

/-- Decode a whole byte list as UTF-8 (model of `bytes.decode("utf-8")`),
returning the scalar values, or `none` on a decode error. -/
def utf8DecodeAll (l : List Nat) : Option (List Nat) :=
  utf8DecodeAllF l.length l

/-- Does the byte list decode as UTF-8 without error? -/
def utf8Valid (l : List Nat) : Bool := (utf8DecodeAll l).isSome

theorem utf8DecodeOne_length_lt {l r : List Nat} {c : Nat}
    (h : utf8DecodeOne l = some (c, r)) : r.length < l.length := by
  cases l with
  | nil => simp [utf8DecodeOne] at h
  | cons b0 t =>
    simp only [utf8DecodeOne] at h
    split at h
    · simp only [Option.some.injEq, Prod.mk.injEq] at h
      obtain ⟨-, rfl⟩ := h
      simp
    · split at h
      · split at h
        · split at h
          · simp only [Option.some.injEq, Prod.mk.injEq] at h
            obtain ⟨-, rfl⟩ := h
            simp
            omega
          · simp at h
        · simp at h
      · split at h
        · split at h
          · split at h
            · simp only [Option.some.injEq, Prod.mk.injEq] at h
              obtain ⟨-, rfl⟩ := h
              simp
              omega
            · simp at h
          · simp at h
        · split at h
          · split at h
            · split at h
              · simp only [Option.some.injEq, Prod.mk.injEq] at h
                obtain ⟨-, rfl⟩ := h
                simp
                omega
              · simp at h
            · simp at h
          · simp at h

theorem utf8DecodeAllF_eq_len (f : Nat) :
    ∀ (g : Nat) (l : List Nat), l.length ≤ g → g ≤ f →
      utf8DecodeAllF g l = utf8DecodeAllF l.length l := by
  induction f with
  | zero =>
    intro g l hl hg
    match l with
    | [] => interval_cases g <;> rfl
    | b :: t => simp only [List.length_cons] at hl; omega
  | succ f ih =>
    intro g l hl hg
    match l with
    | [] =>
      cases g <;> rfl
    | b :: t =>
      match g with
      | 0 => simp at hl
      | g + 1 =>
        show (match utf8DecodeOne (b :: t) with
              | none => none
              | some (c, r) => (utf8DecodeAllF g r).map (c :: ·)) =
             (match utf8DecodeOne (b :: t) with
              | none => none
              | some (c, r) => (utf8DecodeAllF t.length r).map (c :: ·))
        cases h : utf8DecodeOne (b :: t) with
        | none => rfl
        | some cr =>
          have hlt := utf8DecodeOne_length_lt (c := cr.1) (r := cr.2)
            (by simpa using h)
          simp only [List.length_cons] at hlt hl
          have h1 : utf8DecodeAllF g cr.2 = utf8DecodeAllF cr.2.length cr.2 :=
            ih g cr.2 (by omega) (by omega)
          have h2 : utf8DecodeAllF t.length cr.2 = utf8DecodeAllF cr.2.length cr.2 :=
            ih t.length cr.2 (by omega) (by omega)
          simp only [h1, h2]

theorem utf8DecodeAllF_stable (f g : Nat) (l : List Nat)
    (hf : l.length ≤ f) (hg : l.length ≤ g) :
    utf8DecodeAllF f l = utf8DecodeAllF g l := by
  rw [utf8DecodeAllF_eq_len f f l hf (le_refl _),
      utf8DecodeAllF_eq_len g g l hg (le_refl _)]

/-- Unfolding view of `utf8DecodeAll` in terms of `utf8DecodeOne`. -/
theorem utf8DecodeAll_cons (l : List Nat) :
    utf8DecodeAll l =
      match utf8DecodeOne l with
      | none => if l.isEmpty then some [] else none
      | some cr => (utf8DecodeAll cr.2).map (cr.1 :: ·) := by
  match l with
  | [] => rfl
  | b :: t =>
    show utf8DecodeAllF (t.length + 1) (b :: t) = _
    cases h : utf8DecodeOne (b :: t) with
    | none =>
      show (match utf8DecodeOne (b :: t) with
            | none => none
            | some (c, r) => (utf8DecodeAllF t.length r).map (c :: ·)) = _
      rw [h]; rfl
    | some cr =>
      show (match utf8DecodeOne (b :: t) with
            | none => none
            | some (c, r) => (utf8DecodeAllF t.length r).map (c :: ·)) = _
      rw [h]
      have hlt := utf8DecodeOne_length_lt (c := cr.1) (r := cr.2)
        (by simpa using h)
      simp only [List.length_cons] at hlt
      show (utf8DecodeAllF t.length cr.2).map (cr.1 :: ·) =
           (utf8DecodeAll cr.2).map (cr.1 :: ·)
      rw [utf8DecodeAllF_stable t.length cr.2.length cr.2 (by omega) (le_refl _)]
      rfl

/-! ### Replacement-mode decoding (model of `.decode("utf-8", errors="replace")`)

CPython replaces each *maximal subpart* of an ill-formed subsequence by one
`U+FFFD`: a truncated-but-so-far-correct multi-byte sequence is skipped as a
whole, any other offending byte is skipped alone. -/

/-- Length of the maximal subpart at a position where `utf8DecodeOne` fails
(the lead byte plus the following continuation bytes that are admissible at
their position). Always at least 1 on a non-empty list. -/
def invalidSpan : List Nat → Nat
  | [] => 1
  | b0 :: r =>
    if 0xE0 ≤ b0 ∧ b0 ≤ 0xEF then
      match r with
      | b1 :: _ => if cont1Lo b0 ≤ b1 ∧ b1 ≤ cont1Hi b0 then 2 else 1
      | [] => 1
    else if 0xF0 ≤ b0 ∧ b0 ≤ 0xF4 then
      match r with
      | b1 :: b2 :: _ =>
        if cont1Lo b0 ≤ b1 ∧ b1 ≤ cont1Hi b0 then
          (if isCont b2 = true then 3 else 2)
        else 1
      | [b1] => if cont1Lo b0 ≤ b1 ∧ b1 ≤ cont1Hi b0 then 2 else 1
      | [] => 1
    else 1

/-- Fuel-indexed replacement decode. -/
def utf8DecodeReplaceF : Nat → List Nat → List Nat
  | _, [] => []
  | 0, _ :: _ => []
  | f + 1, l =>
    match utf8DecodeOne l with
    | some (c, r) => c :: utf8DecodeReplaceF f r
    | none => 0xFFFD :: utf8DecodeReplaceF f (l.drop (invalidSpan l))

/-- Decode with `errors="replace"` (scalar values, `0xFFFD` for errors). -/
def utf8DecodeReplace (l : List Nat) : List Nat :=
  utf8DecodeReplaceF l.length l

/-! ### The stream decoder (`src/argoproxy/utils/stream_decoder.py`)

`StreamDecoder` carries a byte buffer `_pending_bytes` between calls; we
model `decode` as a function from `(pending, chunk)` to
`(decoded text, new pending, is_complete)` and `flush` as the
replacement-mode decode of the pending buffer. -/

/-- `l[:-i]` in Python: the list without its last `i` elements. -/
def dropLastN (l : List Nat) (i : Nat) : List Nat := l.take (l.length - i)

/-- The loop `for i in range(1, min(4, len(chunk_bytes) + 1))` in
`StreamDecoder.decode`: the first `i ∈ {1, 2, 3}` with `i ≤ len` such that
the buffer without its last `i` bytes decodes. -/
def firstValidDrop (b : List Nat) : Option Nat :=
  if 1 ≤ b.length ∧ utf8Valid (dropLastN b 1) = true then some 1
  else if 2 ≤ b.length ∧ utf8Valid (dropLastN b 2) = true then some 2
  else if 3 ≤ b.length ∧ utf8Valid (dropLastN b 3) = true then some 3
  else none

/-- `StreamDecoder.decode`: combine pending bytes with the chunk; if the
whole buffer decodes return it all (empty new pending, complete); otherwise
drop 1-3 trailing bytes looking for a decodable prefix and retain the tail;
if that fails too, retain the entire buffer and return no text. -/
def streamDecode (pending chunk : List Nat) : List Nat × List Nat × Bool :=
  let b := pending ++ chunk
  match utf8DecodeAll b with
  | some s => (s, [], true)
  | none =>
    match firstValidDrop b with
    | some i => ((utf8DecodeAll (dropLastN b i)).getD [], b.drop (b.length - i), false)
    | none => ([], b, false)

/-- `StreamDecoder.flush`: decode the pending buffer with replacement
(the `except Exception` arm in the source is dead since replacement-mode
decoding never raises). -/
def streamFlush (pending : List Nat) : List Nat :=
  utf8DecodeReplace pending

/-- The loop of `decode_stream_chunks`: feed each non-empty chunk to
`decode`, concatenating the yielded texts, and flush at the end. -/
def decodeChunks (pending : List Nat) : List (List Nat) → List Nat
  | [] => streamFlush pending
  | c :: cs =>
    if c.isEmpty then decodeChunks pending cs
    else
      let r := streamDecode pending c
      r.1 ++ decodeChunks r.2.1 cs

/-! ### Structural lemmas about UTF-8 decoding -/

/-- When `utf8DecodeOne` succeeds it consumes an explicit prefix `u` of
1-4 bytes: appending anything after `u` decodes the same scalar, and no
proper prefix of `u` decodes at all. -/
theorem utf8DecodeOne_consumed {l r : List Nat} {c : Nat}
    (h : utf8DecodeOne l = some (c, r)) :
    ∃ u : List Nat, l = u ++ r ∧ 1 ≤ u.length ∧ u.length ≤ 4 ∧
      (∀ x, utf8DecodeOne (u ++ x) = some (c, x)) ∧
      (∀ m, m < u.length → utf8DecodeOne (u.take m) = none) := by
  cases l with
  | nil => simp [utf8DecodeOne] at h
  | cons b0 t =>
    by_cases h0 : b0 ≤ 0x7F
    · simp [utf8DecodeOne, h0] at h
      obtain ⟨hc, rfl⟩ := h
      subst hc
      exact ⟨[b0], by simp, by simp, by simp,
        fun x => by simp [utf8DecodeOne, h0],
        fun m hm => by
          simp only [List.length_cons, List.length_nil] at hm
          interval_cases m <;> simp [utf8DecodeOne]⟩
    · by_cases h1 : 0xC2 ≤ b0 ∧ b0 ≤ 0xDF
      · cases t with
        | nil => simp [utf8DecodeOne, h0, h1] at h
        | cons b1 t1 =>
          by_cases h2 : isCont b1 = true
          · simp [utf8DecodeOne, h0, h1, h2] at h
            obtain ⟨hc, rfl⟩ := h
            subst hc
            exact ⟨[b0, b1], by simp, by simp, by simp,
              fun x => by simp [utf8DecodeOne, h0, h1, h2],
              fun m hm => by
                simp only [List.length_cons, List.length_nil] at hm
                interval_cases m <;> simp [utf8DecodeOne, h0, h1]⟩
          · simp [utf8DecodeOne, h0, h1, h2] at h
      · by_cases h2 : 0xE0 ≤ b0 ∧ b0 ≤ 0xEF
        · match t with
          | [] => simp [utf8DecodeOne, h0, h1, h2] at h
          | [b1] => simp [utf8DecodeOne, h0, h1, h2] at h
          | b1 :: b2 :: t2 =>
            by_cases h3 : (cont1Lo b0 ≤ b1 ∧ b1 ≤ cont1Hi b0) ∧ isCont b2 = true
            · simp [utf8DecodeOne, h0, h1, h2, h3] at h
              obtain ⟨hc, rfl⟩ := h
              subst hc
              exact ⟨[b0, b1, b2], by simp, by simp, by simp,
                fun x => by simp [utf8DecodeOne, h0, h1, h2, h3],
                fun m hm => by
                  simp only [List.length_cons, List.length_nil] at hm
                  interval_cases m <;> simp [utf8DecodeOne, h0, h1, h2]⟩
            · simp [utf8DecodeOne, h0, h1, h2, h3] at h
        · by_cases h3 : 0xF0 ≤ b0 ∧ b0 ≤ 0xF4
          · match t with
            | [] => simp [utf8DecodeOne, h0, h1, h2, h3] at h
            | [b1] => simp [utf8DecodeOne, h0, h1, h2, h3] at h
            | [b1, b2] => simp [utf8DecodeOne, h0, h1, h2, h3] at h
            | b1 :: b2 :: b3 :: t3 =>
              by_cases h4 : (cont1Lo b0 ≤ b1 ∧ b1 ≤ cont1Hi b0) ∧
                  isCont b2 = true ∧ isCont b3 = true
              · simp [utf8DecodeOne, h0, h1, h2, h3, h4] at h
                obtain ⟨hc, rfl⟩ := h
                subst hc
                exact ⟨[b0, b1, b2, b3], by simp, by simp, by simp,
                  fun x => by simp [utf8DecodeOne, h0, h1, h2, h3, h4],
                  fun m hm => by
                    simp only [List.length_cons, List.length_nil] at hm
                    interval_cases m <;> simp [utf8DecodeOne, h0, h1, h2, h3]⟩
              · simp [utf8DecodeOne, h0, h1, h2, h3, h4] at h
          · simp [utf8DecodeOne, h0, h1, h2, h3] at h

theorem utf8DecodeAll_append_aux (n : Nat) :
    ∀ (u : List Nat), u.length ≤ n → ∀ (v s : List Nat),
      utf8DecodeAll u = some s →
      utf8DecodeAll (u ++ v) = (utf8DecodeAll v).map (s ++ ·) := by
  induction n with
  | zero =>
    intro u hu v s h
    match u with
    | [] =>
      simp only [utf8DecodeAll, List.length_nil, utf8DecodeAllF] at h
      obtain rfl := Option.some.inj h
      cases hv : utf8DecodeAll v <;> simp [hv]
    | b :: t => simp at hu
  | succ n ih =>
    intro u hu v s h
    match u with
    | [] =>
      simp only [utf8DecodeAll, List.length_nil, utf8DecodeAllF] at h
      obtain rfl := Option.some.inj h
      cases hv : utf8DecodeAll v <;> simp [hv]
    | b :: t =>
      rw [utf8DecodeAll_cons] at h
      cases h1 : utf8DecodeOne (b :: t) with
      | none => rw [h1] at h; simp at h
      | some cr =>
        rw [h1] at h
        simp only [Option.map_eq_some'] at h
        obtain ⟨s', hs', rfl⟩ := h
        obtain ⟨w, hw, -, -, hwx, -⟩ :=
          utf8DecodeOne_consumed (c := cr.1) (r := cr.2) (by simpa using h1)
        have hlt := utf8DecodeOne_length_lt (c := cr.1) (r := cr.2)
          (by simpa using h1)
        simp only [List.length_cons] at hlt hu
        have hrec := ih cr.2 (by omega) v s' hs'
        rw [utf8DecodeAll_cons]
        have hone : utf8DecodeOne ((b :: t) ++ v) = some (cr.1, cr.2 ++ v) := by
          have : (b :: t) ++ v = w ++ (cr.2 ++ v) := by rw [hw]; simp
          rw [this, hwx]
        rw [hone]
        show (utf8DecodeAll (cr.2 ++ v)).map (cr.1 :: ·) = _
        rw [hrec]
        cases hv : utf8DecodeAll v <;> simp [hv]

/-- Splitting a decode at a character boundary: if a prefix decodes on its
own, the whole decodes exactly when the rest does, and the outputs
concatenate. -/
theorem utf8DecodeAll_append {u : List Nat} {s : List Nat} (v : List Nat)
    (h : utf8DecodeAll u = some s) :
    utf8DecodeAll (u ++ v) = (utf8DecodeAll v).map (s ++ ·) :=
  utf8DecodeAll_append_aux u.length u (le_refl _) v s h

/-- On a valid byte list, replacement-mode decoding agrees with strict
decoding. -/
theorem utf8DecodeReplaceF_of_valid (f : Nat) :
    ∀ (l s : List Nat), l.length ≤ f → utf8DecodeAll l = some s →
      utf8DecodeReplaceF f l = s := by
  induction f with
  | zero =>
    intro l s hl h
    match l with
    | [] =>
      simp only [utf8DecodeAll, List.length_nil, utf8DecodeAllF] at h
      obtain rfl := Option.some.inj h
      rfl
    | b :: t => simp at hl
  | succ f ih =>
    intro l s hl h
    match l with
    | [] =>
      simp only [utf8DecodeAll, List.length_nil, utf8DecodeAllF] at h
      obtain rfl := Option.some.inj h
      rfl
    | b :: t =>
      rw [utf8DecodeAll_cons] at h
      cases h1 : utf8DecodeOne (b :: t) with
      | none => rw [h1] at h; simp at h
      | some cr =>
        rw [h1] at h
        simp only [Option.map_eq_some'] at h
        obtain ⟨s', hs', rfl⟩ := h
        have hlt := utf8DecodeOne_length_lt (c := cr.1) (r := cr.2)
          (by simpa using h1)
        simp only [List.length_cons] at hlt hl
        show (match utf8DecodeOne (b :: t) with
              | some (c, r) => c :: utf8DecodeReplaceF f r
              | none => 0xFFFD :: utf8DecodeReplaceF f ((b :: t).drop (invalidSpan (b :: t)))) = _
        rw [h1]
        show cr.1 :: utf8DecodeReplaceF f cr.2 = cr.1 :: s'
        rw [ih cr.2 s' (by omega) hs']

theorem utf8DecodeReplace_of_valid {l s : List Nat}
    (h : utf8DecodeAll l = some s) : utf8DecodeReplace l = s :=
  utf8DecodeReplaceF_of_valid l.length l s (le_refl _) h

theorem utf8DecodeAll_none_of_one {l : List Nat} (hne : l ≠ [])
    (h : utf8DecodeOne l = none) : utf8DecodeAll l = none := by
  rw [utf8DecodeAll_cons, h]
  simp [hne]

/-- The boundary lemma: if `b ++ R` decodes, then either `b` decodes on its
own, or the `decode` drop-loop finds the (1-3 byte) incomplete character
tail of `b`, the head of `b` decodes, and the retained tail glued back onto
`R` decodes to the rest. -/
theorem utf8Decode_boundary_aux (n : Nat) :
    ∀ (b R s : List Nat), b.length ≤ n → utf8DecodeAll (b ++ R) = some s →
      (∃ s1 s2, utf8DecodeAll b = some s1 ∧ utf8DecodeAll R = some s2 ∧
        s = s1 ++ s2)
      ∨ (utf8DecodeAll b = none ∧ ∃ i, firstValidDrop b = some i ∧
          1 ≤ i ∧ i ≤ 3 ∧ i ≤ b.length ∧
          ∃ s1 s2, utf8DecodeAll (dropLastN b i) = some s1 ∧
            utf8DecodeAll (b.drop (b.length - i) ++ R) = some s2 ∧
            s = s1 ++ s2) := by
  induction n with
  | zero =>
    intro b R s hb h
    match b with
    | [] =>
      left
      exact ⟨[], s, rfl, by simpa using h, rfl⟩
    | b0 :: t => simp at hb
  | succ n ih =>
    intro b R s hb h
    match b with
    | [] =>
      left
      exact ⟨[], s, rfl, by simpa using h, rfl⟩
    | b0 :: t =>
      cases h1 : utf8DecodeOne (b0 :: t) with
      | some cr =>
        -- the first character lies entirely inside `b`
        obtain ⟨w, hw, hw1, -, hwx, -⟩ :=
          utf8DecodeOne_consumed (c := cr.1) (r := cr.2) (by simpa using h1)
        have hlt := utf8DecodeOne_length_lt (c := cr.1) (r := cr.2)
          (by simpa using h1)
        have hsplit : ∀ y, utf8DecodeAll (w ++ y) =
            (utf8DecodeAll y).map (cr.1 :: ·) := by
          intro y
          rw [utf8DecodeAll_cons, hwx y]
        have hlen : (b0 :: t).length = w.length + cr.2.length := by
          rw [hw]; simp
        -- peel the first character off the hypothesis
        have happ : (b0 :: t) ++ R = w ++ (cr.2 ++ R) := by rw [hw]; simp
        rw [happ, hsplit] at h
        simp only [Option.map_eq_some'] at h
        obtain ⟨s'', hs'', rfl⟩ := h
        simp only [List.length_cons] at hlt hb
        have := ih cr.2 R s'' (by omega) hs''
        rcases this with ⟨s1, s2, hda, hdR, rfl⟩ | ⟨hnone, i, hfvd, hi1, hi3, hilen, s1, s2, hda, hdb, rfl⟩
        · -- the rest of `b` also decodes: `b` decodes
          left
          refine ⟨cr.1 :: s1, s2, ?_, hdR, rfl⟩
          have : (b0 :: t) = w ++ cr.2 := hw
          rw [this, hsplit, hda]
          rfl
        · -- the rest of `b` has an incomplete tail: lift it to `b`
          right
          have hbnone : utf8DecodeAll (b0 :: t) = none := by
            rw [hw, hsplit, hnone]; rfl
          -- validity of drops transfers along the leading character
          have htake : ∀ j, j ≤ cr.2.length →
              dropLastN (b0 :: t) j = w ++ dropLastN cr.2 j := by
            intro j hj
            show (b0 :: t).take ((b0 :: t).length - j) = _
            rw [hw]
            simp only [List.length_append]
            have : w.length + cr.2.length - j = w.length + (cr.2.length - j) := by
              omega
            rw [this, List.take_append]
            rfl
          have hvalid : ∀ j, j ≤ cr.2.length →
              utf8Valid (dropLastN (b0 :: t) j) = utf8Valid (dropLastN cr.2 j) := by
            intro j hj
            simp only [utf8Valid]
            rw [htake j hj, hsplit]
            cases utf8DecodeAll (dropLastN cr.2 j) <;> rfl
          refine ⟨hbnone, i, ?_, hi1, hi3, by omega, cr.1 :: s1, s2, ?_, ?_, rfl⟩
          · -- firstValidDrop transfers
            simp only [firstValidDrop] at hfvd ⊢
            split_ifs at hfvd with c1 c2 c3
            · obtain rfl := Option.some.inj hfvd
              have hB : 1 ≤ (b0 :: t).length ∧
                  utf8Valid (dropLastN (b0 :: t) 1) = true := by
                refine ⟨by simp only [hlen]; omega, ?_⟩
                rw [hvalid 1 (by omega)]
                exact c1.2
              rw [if_pos hB]
            · obtain rfl := Option.some.inj hfvd
              have hv1 : utf8Valid (dropLastN cr.2 1) = false := by
                by_contra hx
                have h2l := c2.1
                exact c1 ⟨by omega, by simpa using hx⟩
              have hA : ¬(1 ≤ (b0 :: t).length ∧
                  utf8Valid (dropLastN (b0 :: t) 1) = true) := by
                rintro ⟨-, hv⟩
                have h2l := c2.1
                rw [hvalid 1 (by omega)] at hv
                simp [hv1] at hv
              have hB : 2 ≤ (b0 :: t).length ∧
                  utf8Valid (dropLastN (b0 :: t) 2) = true := by
                have h2l := c2.1
                refine ⟨by simp only [hlen]; omega, ?_⟩
                rw [hvalid 2 (by omega)]
                exact c2.2
              rw [if_neg hA, if_pos hB]
            · obtain rfl := Option.some.inj hfvd
              have h3l := c3.1
              have hv1 : utf8Valid (dropLastN cr.2 1) = false := by
                by_contra hx
                exact c1 ⟨by omega, by simpa using hx⟩
              have hv2 : utf8Valid (dropLastN cr.2 2) = false := by
                by_contra hx
                exact c2 ⟨by omega, by simpa using hx⟩
              have hA1 : ¬(1 ≤ (b0 :: t).length ∧
                  utf8Valid (dropLastN (b0 :: t) 1) = true) := by
                rintro ⟨-, hv⟩
                rw [hvalid 1 (by omega)] at hv
                simp [hv1] at hv
              have hA2 : ¬(2 ≤ (b0 :: t).length ∧
                  utf8Valid (dropLastN (b0 :: t) 2) = true) := by
                rintro ⟨-, hv⟩
                rw [hvalid 2 (by omega)] at hv
                simp [hv2] at hv
              have hB : 3 ≤ (b0 :: t).length ∧
                  utf8Valid (dropLastN (b0 :: t) 3) = true := by
                refine ⟨by simp only [hlen]; omega, ?_⟩
                rw [hvalid 3 (by omega)]
                exact c3.2
              rw [if_neg hA1, if_neg hA2, if_pos hB]
          · rw [htake i hilen, hsplit, hda]
            rfl
          · have hdrop : (b0 :: t).drop ((b0 :: t).length - i) =
                cr.2.drop (cr.2.length - i) := by
              rw [hw]
              simp only [List.length_append]
              have : w.length + cr.2.length - i = w.length + (cr.2.length - i) := by
                omega
              rw [this, List.drop_append]
            rw [hdrop]
            exact hdb
      | none =>
        -- the first character of `b ++ R` straddles the boundary:
        -- all of `b` is a proper prefix of one character
        right
        rw [utf8DecodeAll_cons] at h
        cases h0 : utf8DecodeOne ((b0 :: t) ++ R) with
        | none => rw [h0] at h; simp at h
        | some cr0 =>
          rw [h0] at h
          simp only [Option.map_eq_some'] at h
          obtain ⟨s', hs', rfl⟩ := h
          obtain ⟨w, hw, hw1, hw4, hwx, hwm⟩ :=
            utf8DecodeOne_consumed (c := cr0.1) (r := cr0.2) (by simpa using h0)
          have hblt : (b0 :: t).length < w.length := by
            by_contra hle
            push_neg at hle
            have h1' : w = (b0 :: t).take w.length := by
              have hcg := congrArg (List.take w.length) hw
              rw [← List.cons_append] at hcg
              rw [List.take_append_of_le_length hle,
                  List.take_append_of_le_length (le_refl _)] at hcg
              rw [hcg]
              simp
            have hbw : (b0 :: t) = w ++ (b0 :: t).drop w.length := by
              conv_lhs => rw [← List.take_append_drop w.length (b0 :: t)]
              rw [← h1']
            rw [hbw, hwx] at h1
            simp at h1
          have hbw : (b0 :: t) = w.take (b0 :: t).length := by
            have hcg := congrArg (List.take (b0 :: t).length) hw
            rw [← List.cons_append] at hcg
            rw [List.take_append_of_le_length (le_of_lt hblt),
                List.take_append_of_le_length (le_refl _)] at hcg
            simpa using hcg
          have hbne : (1 : Nat) ≤ (b0 :: t).length := by simp
          -- every drop of fewer than all the bytes of `b` is invalid
          have hdropinv : ∀ j, j < (b0 :: t).length →
              utf8Valid (dropLastN (b0 :: t) j) = false := by
            intro j hj
            have htk : dropLastN (b0 :: t) j = w.take ((b0 :: t).length - j) := by
              have hcg := congrArg (List.take ((b0 :: t).length - j)) hbw
              rw [List.take_take, min_eq_left (by omega)] at hcg
              exact hcg
            have hone : utf8DecodeOne (dropLastN (b0 :: t) j) = none := by
              rw [htk]
              exact hwm _ (by omega)
            have hlenne : (dropLastN (b0 :: t) j).length =
                (b0 :: t).length - j := by
              rw [htk, List.length_take]
              omega
            have hne : dropLastN (b0 :: t) j ≠ [] := by
              intro hemp
              rw [hemp] at hlenne
              simp only [List.length_nil, List.length_cons] at hlenne hj
              omega
            show (utf8DecodeAll (dropLastN (b0 :: t) j)).isSome = false
            rw [utf8DecodeAll_none_of_one hne hone]
            rfl
          have hlast : dropLastN (b0 :: t) (b0 :: t).length = [] := by
            show (b0 :: t).take ((b0 :: t).length - (b0 :: t).length) = []
            simp
          have hball : (b0 :: t).drop ((b0 :: t).length - (b0 :: t).length) =
              (b0 :: t) := by simp
          have hbnone : utf8DecodeAll (b0 :: t) = none :=
            utf8DecodeAll_none_of_one (by simp) h1
          have hblen3 : (b0 :: t).length ≤ 3 := by
            simp only [List.length_cons] at hblt ⊢
            omega
          refine ⟨hbnone, (b0 :: t).length, ?_, hbne, hblen3, le_refl _,
            [], cr0.1 :: s', by rw [hlast]; rfl, ?_, rfl⟩
          · -- the drop loop reaches exactly the length of `b`
            simp only [firstValidDrop]
            rcases (show (b0 :: t).length = 1 ∨ (b0 :: t).length = 2 ∨
                (b0 :: t).length = 3 by omega) with he | he | he
            · have hd : dropLastN (b0 :: t) 1 = [] := by rw [← he]; exact hlast
              rw [if_pos ⟨by simp [he], by rw [hd]; rfl⟩, he]
            · have hd : dropLastN (b0 :: t) 2 = [] := by rw [← he]; exact hlast
              have hi1 := hdropinv 1 (by simp [he])
              rw [if_neg (by rintro ⟨-, hv⟩; simp [hi1] at hv),
                  if_pos ⟨by simp [he], by rw [hd]; rfl⟩, he]
            · have hd : dropLastN (b0 :: t) 3 = [] := by rw [← he]; exact hlast
              have hi1 := hdropinv 1 (by simp [he])
              have hi2 := hdropinv 2 (by simp [he])
              rw [if_neg (by rintro ⟨-, hv⟩; simp [hi1] at hv),
                  if_neg (by rintro ⟨-, hv⟩; simp [hi2] at hv),
                  if_pos ⟨by simp [he], by rw [hd]; rfl⟩, he]
          · rw [hball, utf8DecodeAll_cons, h0]
            show (utf8DecodeAll cr0.2).map (cr0.1 :: ·) = _
            rw [hs']
            rfl

theorem utf8Decode_boundary {b R s : List Nat}
    (h : utf8DecodeAll (b ++ R) = some s) :
    (∃ s1 s2, utf8DecodeAll b = some s1 ∧ utf8DecodeAll R = some s2 ∧
      s = s1 ++ s2)
    ∨ (utf8DecodeAll b = none ∧ ∃ i, firstValidDrop b = some i ∧
        1 ≤ i ∧ i ≤ 3 ∧ i ≤ b.length ∧
        ∃ s1 s2, utf8DecodeAll (dropLastN b i) = some s1 ∧
          utf8DecodeAll (b.drop (b.length - i) ++ R) = some s2 ∧
          s = s1 ++ s2) :=
  utf8Decode_boundary_aux b.length b R s (le_refl _) h

theorem decodeChunks_eq_aux :
    ∀ (cs : List (List Nat)) (pending s : List Nat),
      utf8DecodeAll (pending ++ cs.flatten) = some s →
      decodeChunks pending cs = s := by
  intro cs
  induction cs with
  | nil =>
    intro pending s h
    simp only [List.flatten_nil, List.append_nil] at h
    exact utf8DecodeReplace_of_valid h
  | cons c cs ih =>
    intro pending s h
    simp only [List.flatten_cons] at h
    show (if c.isEmpty then decodeChunks pending cs
          else
            let r := streamDecode pending c
            r.1 ++ decodeChunks r.2.1 cs) = s
    by_cases hc : c.isEmpty
    · rw [if_pos hc]
      have hcnil : c = [] := by
        cases c
        · rfl
        · simp at hc
      apply ih
      rw [hcnil] at h
      simpa using h
    · rw [if_neg hc]
      have h' : utf8DecodeAll ((pending ++ c) ++ cs.flatten) = some s := by
        rw [List.append_assoc]
        exact h
      rcases utf8Decode_boundary h' with
        ⟨s1, s2, hda, hdR, rfl⟩ |
        ⟨hnone, i, hfvd, -, -, -, s1, s2, hda, hdb, rfl⟩
      · have hsd : streamDecode pending c = (s1, [], true) := by
          simp only [streamDecode]
          rw [hda]
        simp only [hsd]
        have : decodeChunks [] cs = s2 := by
          apply ih
          simpa using hdR
        rw [this]
      · have hsd : streamDecode pending c =
            ((utf8DecodeAll (dropLastN (pending ++ c) i)).getD [],
             (pending ++ c).drop ((pending ++ c).length - i), false) := by
          simp only [streamDecode]
          rw [hnone, hfvd]
        simp only [hsd, hda]
        have : decodeChunks ((pending ++ c).drop ((pending ++ c).length - i)) cs
            = s2 := ih _ _ hdb
        rw [this]
        rfl

/-- **C10**: chunk-boundary insensitivity of the stream decoder — feeding
any chunking of a valid UTF-8 byte sequence through successive
`StreamDecoder.decode` calls followed by the final `flush` reproduces
exactly the decoding of the whole sequence. -/
theorem decodeChunks_complete (chunks : List (List Nat)) (s : List Nat)
    (h : utf8DecodeAll chunks.flatten = some s) :
    decodeChunks [] chunks = s :=
  decodeChunks_eq_aux chunks [] s (by simpa using h)

/-- Witness for **C10** on the chunking `[[0xE4, 0xB8], [0x96], [0x41]]`
of the UTF-8 encoding of `"世A"`, which splits the three-byte character
`世` across the first two chunks. -/
theorem decodeChunks_complete_witness :
    utf8DecodeAll ([[228, 184], [150], [65]] : List (List Nat)).flatten =
        some [19990, 65] ∧
      decodeChunks [] [[228, 184], [150], [65]] = [19990, 65] :=
  ⟨by decide, decodeChunks_complete _ _ (by decide)⟩

/-- **C3** (counterexample): on the chunk `0x41 0x80 0x80 0x80 0x80` the
decoder's pending buffer ends up holding five bytes (more than the claimed
three), and the returned text is empty even though the longest UTF-8-valid
prefix is the one-byte sequence `0x41` (which decodes to `A`). -/
theorem streamDecode_pending_exceeds_three :
    (streamDecode [] [65, 128, 128, 128, 128]).2.1.length = 5 ∧
      (streamDecode [] [65, 128, 128, 128, 128]).1 = [] ∧
      utf8DecodeAll [65] = some [65] := by
  decide

/-- **C3** (amended): whenever some suffix of at most three bytes can be
dropped from the combined buffer (pending + chunk) to leave a valid UTF-8
sequence — as is always the case when the overall stream is valid UTF-8 —
`StreamDecoder.decode` retains at most three pending bytes, returns exactly
the decoding of the longest UTF-8-valid prefix of the combined buffer, and
retains precisely the remainder.  (Without that hypothesis the decoder
stores the whole combined buffer, which can exceed three bytes.) -/
theorem streamDecode_bounded (pending chunk : List Nat)
    (h : ∃ i, i ≤ 3 ∧ i ≤ (pending ++ chunk).length ∧
      utf8Valid (dropLastN (pending ++ chunk) i) = true) :
    (streamDecode pending chunk).2.1.length ≤ 3 ∧
      dropLastN (pending ++ chunk) (streamDecode pending chunk).2.1.length ++
        (streamDecode pending chunk).2.1 = pending ++ chunk ∧
      utf8DecodeAll
          (dropLastN (pending ++ chunk) (streamDecode pending chunk).2.1.length) =
        some (streamDecode pending chunk).1 ∧
      ∀ j, j < (streamDecode pending chunk).2.1.length →
        utf8Valid (dropLastN (pending ++ chunk) j) = false := by
  cases hda : utf8DecodeAll (pending ++ chunk) with
  | some s =>
    have hsd : streamDecode pending chunk = (s, [], true) := by
      simp only [streamDecode]
      rw [hda]
    rw [hsd]
    refine ⟨by simp, ?_, ?_, by simp⟩
    · show dropLastN (pending ++ chunk) 0 ++ [] = pending ++ chunk
      simp [dropLastN]
    · show utf8DecodeAll (dropLastN (pending ++ chunk) 0) = some s
      simp only [dropLastN, Nat.sub_zero, List.take_length]
      exact hda
  | none =>
    have hvb : utf8Valid (pending ++ chunk) = false := by
      simp [utf8Valid, hda]
    obtain ⟨i, hi3, hilen, hiv⟩ := h
    have hi1 : 1 ≤ i := by
      rcases Nat.eq_zero_or_pos i with rfl | h1
      · exfalso
        simp only [dropLastN, Nat.sub_zero, List.take_length] at hiv
        rw [hvb] at hiv
        exact Bool.false_ne_true hiv
      · exact h1
    have hj0 : utf8Valid (dropLastN (pending ++ chunk) 0) = false := by
      simp only [dropLastN, Nat.sub_zero, List.take_length]
      exact hvb
    have branch : ∀ k : Nat, firstValidDrop (pending ++ chunk) = some k →
        utf8Valid (dropLastN (pending ++ chunk) k) = true →
        k ≤ 3 → k ≤ (pending ++ chunk).length →
        (∀ j, j < k → utf8Valid (dropLastN (pending ++ chunk) j) = false) →
        (streamDecode pending chunk).2.1.length ≤ 3 ∧
          dropLastN (pending ++ chunk) (streamDecode pending chunk).2.1.length ++
            (streamDecode pending chunk).2.1 = pending ++ chunk ∧
          utf8DecodeAll
              (dropLastN (pending ++ chunk)
                (streamDecode pending chunk).2.1.length) =
            some (streamDecode pending chunk).1 ∧
          ∀ j, j < (streamDecode pending chunk).2.1.length →
            utf8Valid (dropLastN (pending ++ chunk) j) = false := by
      intro k hfv hkv hk3 hklen hjlt
      have e2 : (streamDecode pending chunk).2.1 =
          (pending ++ chunk).drop ((pending ++ chunk).length - k) := by
        simp only [streamDecode]
        rw [hda, hfv]
      have e1 : (streamDecode pending chunk).1 =
          (utf8DecodeAll (dropLastN (pending ++ chunk) k)).getD [] := by
        simp only [streamDecode]
        rw [hda, hfv]
      obtain ⟨s1, hs1⟩ := Option.isSome_iff_exists.mp hkv
      have hlenk :
          ((pending ++ chunk).drop ((pending ++ chunk).length - k)).length = k := by
        rw [List.length_drop]
        omega
      rw [e1, e2, hlenk]
      refine ⟨by omega, List.take_append_drop _ _, ?_, hjlt⟩
      rw [hs1]
      rfl
    by_cases c1 : 1 ≤ (pending ++ chunk).length ∧
        utf8Valid (dropLastN (pending ++ chunk) 1) = true
    · refine branch 1 ?_ c1.2 (by omega) c1.1 ?_
      · simp only [firstValidDrop]
        rw [if_pos c1]
      · intro j hj
        interval_cases j
        exact hj0
    · have hv1 : utf8Valid (dropLastN (pending ++ chunk) 1) = false := by
        rcases Bool.eq_false_or_eq_true (utf8Valid (dropLastN (pending ++ chunk) 1))
          with hv | hv
        · exact absurd ⟨by omega, hv⟩ c1
        · exact hv
      by_cases c2 : 2 ≤ (pending ++ chunk).length ∧
          utf8Valid (dropLastN (pending ++ chunk) 2) = true
      · refine branch 2 ?_ c2.2 (by omega) c2.1 ?_
        · simp only [firstValidDrop]
          rw [if_neg c1, if_pos c2]
        · intro j hj
          interval_cases j
          · exact hj0
          · exact hv1
      · by_cases c3 : 3 ≤ (pending ++ chunk).length ∧
            utf8Valid (dropLastN (pending ++ chunk) 3) = true
        · have h3l := c3.1
          have hv2 : utf8Valid (dropLastN (pending ++ chunk) 2) = false := by
            rcases Bool.eq_false_or_eq_true
              (utf8Valid (dropLastN (pending ++ chunk) 2)) with hv | hv
            · exact absurd ⟨by omega, hv⟩ c2
            · exact hv
          refine branch 3 ?_ c3.2 (by omega) c3.1 ?_
          · simp only [firstValidDrop]
            rw [if_neg c1, if_neg c2, if_pos c3]
          · intro j hj
            interval_cases j
            · exact hj0
            · exact hv1
            · exact hv2
        · exfalso
          interval_cases i
          · exact c1 ⟨hilen, hiv⟩
          · exact c2 ⟨hilen, hiv⟩
          · exact c3 ⟨hilen, hiv⟩

/-- Witness for **C3** (amended): feeding the first two bytes of the
three-byte character `世`, the decoder returns no text and keeps the two
bytes pending. -/
theorem streamDecode_bounded_witness :
    (streamDecode [] [228, 184]).2.1.length ≤ 3 ∧
      dropLastN ([] ++ [228, 184]) (streamDecode [] [228, 184]).2.1.length ++
        (streamDecode [] [228, 184]).2.1 = [] ++ [228, 184] ∧
      utf8DecodeAll
          (dropLastN ([] ++ [228, 184]) (streamDecode [] [228, 184]).2.1.length) =
        some (streamDecode [] [228, 184]).1 ∧
      ∀ j, j < (streamDecode [] [228, 184]).2.1.length →
        utf8Valid (dropLastN ([] ++ [228, 184]) j) = false :=
  streamDecode_bounded [] [228, 184] ⟨2, by decide, by decide, by decide⟩

/-! ### Model registry resolution (spec §4.D) -/

/-- Modelled from the spec: the model registry state of §4.D
(`argoproxy/models.py` is not under `src/`; only its tests and the legacy
resolver are).  Aliases are an ordered association list from alias key
(e.g. `"argo:gpt-4o"`) to internal id (e.g. `"gpt4o"`), kept separately per
type `chat` / `embed`, with one default internal id per type. -/
structure ModelRegistry where
  chatAliases : List (String × String)
  embedAliases : List (String × String)
  defaultChat : String
  defaultEmbed : String
deriving DecidableEq

/-- The alias table for the requested model type. -/
def ModelRegistry.aliasesFor (reg : ModelRegistry) (ty : String) :
    List (String × String) :=
  if ty = "embed" then reg.embedAliases else reg.chatAliases

/-- The default internal id for the requested model type. -/
def ModelRegistry.defaultFor (reg : ModelRegistry) (ty : String) : String :=
  if ty = "embed" then reg.defaultEmbed else reg.defaultChat

/-- First value associated with an alias key. -/
def lookupAlias (m : List (String × String)) (k : String) : Option String :=
  (m.find? (fun p => p.1 = k)).map (·.2)

/-- Is the string one of the internal ids (a value of the table)? -/
def isInternalId (m : List (String × String)) (v : String) : Bool :=
  m.any (fun p => p.2 = v)

/-- Replace every `/` by `:` in a model name. -/
def slashToColon (s : String) : String :=
  ⟨s.data.map (fun c => if c = '/' then ':' else c)⟩

/-- Modelled from the spec: ASCII lower-casing as used by model-name
normalisation (all catalogue names are ASCII). -/
def lowerChar (c : Char) : Char :=
  if 'A' ≤ c ∧ c ≤ 'Z' then Char.ofNat (c.toNat + 32) else c

/-- Lower-case a model name. -/
def lowerName (s : String) : String := ⟨s.data.map lowerChar⟩

/-- Modelled from the spec: a name counts as carrying a family prefix when
it already contains a `:` separator (alias keys are `family:rest`). -/
def hasFamilyPrefix (s : String) : Bool := s.data.contains ':'

/-- Modelled from the spec (§4.D) and pinned by `test/test_model_resolution.py`
(`ModelRegistry.resolve_model_name` itself is not under `src/`): apply, in
order, the candidate transformations — verbatim key, exact internal-id
match, `/`→`:`, lower-case, prepend `argo:` when no family prefix — each
building on the previous candidate (the tests require
`"ARGO/GPT-4O" ↦ "gpt4o"`, which needs `/`→`:` composed with lower-casing),
returning on the first alias-key hit, and falling back to the default
internal id of the requested type. -/
def resolve_model_name (reg : ModelRegistry) (name ty : String) : String :=
  match lookupAlias (reg.aliasesFor ty) name with
  | some v => v
  | none =>
    if isInternalId (reg.aliasesFor ty) name then name
    else
      match lookupAlias (reg.aliasesFor ty) (slashToColon name) with
      | some v => v
      | none =>
        match lookupAlias (reg.aliasesFor ty) (lowerName (slashToColon name)) with
        | some v => v
        | none =>
          if hasFamilyPrefix (lowerName (slashToColon name)) then
            reg.defaultFor ty
          else
            match lookupAlias (reg.aliasesFor ty)
                ("argo:" ++ lowerName (slashToColon name)) with
            | some v => v
            | none => reg.defaultFor ty

/-- A registry is well-formed when every internal id (alias values and the
defaults) is non-empty. -/
def RegistryWF (reg : ModelRegistry) : Prop :=
  (∀ p ∈ reg.chatAliases, p.2 ≠ "") ∧ (∀ p ∈ reg.embedAliases, p.2 ≠ "") ∧
    reg.defaultChat ≠ "" ∧ reg.defaultEmbed ≠ ""

instance (reg : ModelRegistry) : Decidable (RegistryWF reg) := by
  unfold RegistryWF
  infer_instance

theorem lookupAlias_value_wf {m : List (String × String)} {k v : String}
    (hwf : ∀ p ∈ m, p.2 ≠ "") (h : lookupAlias m k = some v) : v ≠ "" := by
  simp only [lookupAlias, Option.map_eq_some'] at h
  obtain ⟨p, hp, rfl⟩ := h
  exact hwf p (List.mem_of_find?_eq_some hp)

theorem aliasesFor_wf {reg : ModelRegistry} (hwf : RegistryWF reg)
    (ty : String) : ∀ p ∈ reg.aliasesFor ty, p.2 ≠ "" := by
  unfold ModelRegistry.aliasesFor
  split
  · exact hwf.2.1
  · exact hwf.1

theorem defaultFor_wf {reg : ModelRegistry} (hwf : RegistryWF reg)
    (ty : String) : reg.defaultFor ty ≠ "" := by
  unfold ModelRegistry.defaultFor
  split
  · exact hwf.2.2.2
  · exact hwf.2.2.1

/-- **C4**: model resolution is total and ordered.  For every input name
and type, `resolve_model_name` returns a non-empty internal id (given a
well-formed registry), candidates are tried in the spec's order with the
first alias-key hit returned, and the default internal id of the requested
type is returned when every candidate fails. -/
theorem resolve_model_name_total_ordered (reg : ModelRegistry)
    (hwf : RegistryWF reg) (name ty : String) :
    resolve_model_name reg name ty ≠ "" ∧
    (∀ v, lookupAlias (reg.aliasesFor ty) name = some v →
      resolve_model_name reg name ty = v) ∧
    (lookupAlias (reg.aliasesFor ty) name = none →
      isInternalId (reg.aliasesFor ty) name = true →
      resolve_model_name reg name ty = name) ∧
    (lookupAlias (reg.aliasesFor ty) name = none →
      isInternalId (reg.aliasesFor ty) name = false →
      ∀ v, lookupAlias (reg.aliasesFor ty) (slashToColon name) = some v →
        resolve_model_name reg name ty = v) ∧
    (lookupAlias (reg.aliasesFor ty) name = none →
      isInternalId (reg.aliasesFor ty) name = false →
      lookupAlias (reg.aliasesFor ty) (slashToColon name) = none →
      ∀ v, lookupAlias (reg.aliasesFor ty) (lowerName (slashToColon name)) = some v →
        resolve_model_name reg name ty = v) ∧
    (lookupAlias (reg.aliasesFor ty) name = none →
      isInternalId (reg.aliasesFor ty) name = false →
      lookupAlias (reg.aliasesFor ty) (slashToColon name) = none →
      lookupAlias (reg.aliasesFor ty) (lowerName (slashToColon name)) = none →
      hasFamilyPrefix (lowerName (slashToColon name)) = false →
      ∀ v, lookupAlias (reg.aliasesFor ty)
          ("argo:" ++ lowerName (slashToColon name)) = some v →
        resolve_model_name reg name ty = v) ∧
    (lookupAlias (reg.aliasesFor ty) name = none →
      isInternalId (reg.aliasesFor ty) name = false →
      lookupAlias (reg.aliasesFor ty) (slashToColon name) = none →
      lookupAlias (reg.aliasesFor ty) (lowerName (slashToColon name)) = none →
      (hasFamilyPrefix (lowerName (slashToColon name)) = true ∨
        lookupAlias (reg.aliasesFor ty)
          ("argo:" ++ lowerName (slashToColon name)) = none) →
      resolve_model_name reg name ty = reg.defaultFor ty) := by
  have hv := aliasesFor_wf hwf ty
  refine ⟨?_, ?_, ?_, ?_, ?_, ?_, ?_⟩
  · -- totality: every branch of the definition yields a non-empty id
    unfold resolve_model_name
    cases h1 : lookupAlias (reg.aliasesFor ty) name with
    | some v => exact lookupAlias_value_wf hv h1
    | none =>
      simp only []
      by_cases h2 : isInternalId (reg.aliasesFor ty) name
      · rw [if_pos h2]
        simp only [isInternalId, List.any_eq_true] at h2
        obtain ⟨p, hp, hpv⟩ := h2
        simp only [decide_eq_true_eq] at hpv
        exact hpv ▸ hv p hp
      · rw [if_neg h2]
        cases h3 : lookupAlias (reg.aliasesFor ty) (slashToColon name) with
        | some v => exact lookupAlias_value_wf hv h3
        | none =>
          simp only []
          cases h4 : lookupAlias (reg.aliasesFor ty)
              (lowerName (slashToColon name)) with
          | some v => exact lookupAlias_value_wf hv h4
          | none =>
            simp only []
            by_cases h5 : hasFamilyPrefix (lowerName (slashToColon name))
            · rw [if_pos h5]
              exact defaultFor_wf hwf ty
            · rw [if_neg h5]
              cases h6 : lookupAlias (reg.aliasesFor ty)
                  ("argo:" ++ lowerName (slashToColon name)) with
              | some v => exact lookupAlias_value_wf hv h6
              | none => exact defaultFor_wf hwf ty
  · intro v h1
    unfold resolve_model_name
    rw [h1]
  · intro h1 h2
    unfold resolve_model_name
    rw [h1]
    simp only [h2, if_true]
  · intro h1 h2 v h3
    unfold resolve_model_name
    rw [h1]
    simp only [h2, Bool.false_eq_true, if_false]
    rw [h3]
  · intro h1 h2 h3 v h4
    unfold resolve_model_name
    rw [h1]
    simp only [h2, Bool.false_eq_true, if_false]
    rw [h3]
    simp only []
    rw [h4]
  · intro h1 h2 h3 h4 h5 v h6
    unfold resolve_model_name
    rw [h1]
    simp only [h2, Bool.false_eq_true, if_false]
    rw [h3]
    simp only []
    rw [h4]
    simp only [h5, Bool.false_eq_true, if_false]
    rw [h6]
  · intro h1 h2 h3 h4 h5
    unfold resolve_model_name
    rw [h1]
    simp only [h2, Bool.false_eq_true, if_false]
    rw [h3]
    simp only []
    rw [h4]
    rcases h5 with h5 | h5
    · simp only [h5, if_true]
    · by_cases h6 : hasFamilyPrefix (lowerName (slashToColon name))
      · simp only [h6, if_true]
      · simp only [h6, Bool.false_eq_true, if_false]
        rw [h5]

/-- The registry of `test/test_model_resolution.py` restricted to the two
entries the tests exercise. -/
def testRegistry : ModelRegistry :=
  { chatAliases := [("argo:gpt-4o", "gpt4o")]
    embedAliases := [("argo:text-embedding-3-small", "v3small")]
    defaultChat := "gpt4o"
    defaultEmbed := "v3small" }

/-- Witness for **C4** at the test registry: resolution is total on an
arbitrary unknown name, and `"ARGO/GPT-4O"` resolves through `/`→`:` plus
lower-casing (as the tests require). -/
theorem resolve_model_name_total_ordered_witness :
    RegistryWF testRegistry ∧
      resolve_model_name testRegistry "nonexistent-chat-model" "chat" ≠ "" ∧
      resolve_model_name testRegistry "ARGO/GPT-4O" "chat" = "gpt4o" ∧
      resolve_model_name testRegistry "gpt-4o" "chat" = "gpt4o" ∧
      resolve_model_name testRegistry "text-embedding-3-small" "embed" = "v3small" :=
  ⟨by decide,
   (resolve_model_name_total_ordered testRegistry (by decide)
     "nonexistent-chat-model" "chat").1,
   by decide, by decide, by decide⟩

/-! ### Image processing (`src/argoproxy/utils/image_processing.py`) -/

/-- The module constant `SUPPORTED_IMAGE_FORMATS`. -/
def SUPPORTED_IMAGE_FORMATS : List String :=
  ["image/png", "image/jpeg", "image/jpg", "image/webp", "image/gif"]

/-- The module constant `SUPPORTED_EXTENSIONS`. -/
def SUPPORTED_EXTENSIONS : List String :=
  [".png", ".jpg", ".jpeg", ".webp", ".gif"]

/-- `is_data_url`: does the URL start with `data:`? -/
def is_data_url (url : String) : Bool := "data:".data.isPrefixOf url.data

/-- `is_http_url`: does the URL start with `http://` or `https://`? -/
def is_http_url (url : String) : Bool :=
  "http://".data.isPrefixOf url.data || "https://".data.isPrefixOf url.data

/-- Index of the first occurrence of `pat` in `l`. -/
def findSub : List Char → List Char → Option Nat
  | [], pat => if pat.isPrefixOf ([] : List Char) then some 0 else none
  | l@(_ :: t), pat =>
    if pat.isPrefixOf l then some 0 else (findSub t pat).map (· + 1)

/-- Model of `urllib.parse.urlparse(url)` restricted to what the source
consults: the netloc and path of an URL containing `://`; an URL without
`://` has no netloc and is all path (query and fragment are cut at
`?` / `#`). -/
def urlNetlocPath (url : String) : Option (List Char) × List Char :=
  match findSub url.data "://".data with
  | none => (none, url.data.takeWhile (fun c => c ≠ '?' && c ≠ '#'))
  | some i =>
    (some ((url.data.drop (i + 3)).takeWhile
        (fun c => c ≠ '/' && c ≠ '?' && c ≠ '#')),
     ((url.data.drop (i + 3)).dropWhile
        (fun c => c ≠ '/' && c ≠ '?' && c ≠ '#')).takeWhile
        (fun c => c ≠ '?' && c ≠ '#'))

/-- The path component of an URL. -/
def urlPath (url : String) : String := ⟨(urlNetlocPath url).2⟩

/-- The URL well-formedness gate of `download_image_to_base64`
(`if not parsed_url.scheme or not parsed_url.netloc: return None`). -/
def urlHasSchemeNetloc (url : String) : Bool :=
  match findSub url.data "://".data with
  | some i =>
    decide (1 ≤ i) && !((urlNetlocPath url).1.getD []).isEmpty
  | none => false

/-- Modelled from the spec: `mimetypes.guess_type` (Python stdlib, outside
this repository) restricted to the image extensions in play, with the
source's fallback `(mime_type or "application/octet-stream")`. -/
def mimeGuess (url : String) : String :=
  if ".png".data.isSuffixOf (lowerName (urlPath url)).data then "image/png"
  else if ".jpg".data.isSuffixOf (lowerName (urlPath url)).data then "image/jpeg"
  else if ".jpeg".data.isSuffixOf (lowerName (urlPath url)).data then "image/jpeg"
  else if ".webp".data.isSuffixOf (lowerName (urlPath url)).data then "image/webp"
  else if ".gif".data.isSuffixOf (lowerName (urlPath url)).data then "image/gif"
  else "application/octet-stream"

/-- `is_supported_image_format`: the content type is in the supported set,
or — irrespective of whether a content type is present — the lower-cased
URL path ends with a supported extension. -/
def is_supported_image_format (contentType : String) (url : String) : Bool :=
  if contentType ≠ "" && lowerName contentType ∈ SUPPORTED_IMAGE_FORMATS then
    true
  else if url ≠ "" then
    SUPPORTED_EXTENSIONS.any
      (fun ext => ext.data.isSuffixOf (lowerName (urlPath url)).data)
  else false

/-- `validate_image_content`: at least 8 bytes, and the magic-byte prefix
matches for the four known families; any other content type passes. -/
def validate_image_content (imageData : List Nat) (contentType : String) :
    Bool :=
  if imageData.isEmpty || imageData.length < 8 then false
  else if contentType = "image/png" then
    decide (imageData.take 8 = [0x89, 0x50, 0x4E, 0x47, 0x0D, 0x0A, 0x1A, 0x0A])
  else if contentType = "image/jpeg" || contentType = "image/jpg" then
    decide (imageData.take 3 = [0xFF, 0xD8, 0xFF])
  else if contentType = "image/webp" then
    decide (12 ≤ imageData.length) &&
      decide (imageData.take 4 = [0x52, 0x49, 0x46, 0x46]) &&
      decide ((imageData.drop 8).take 4 = [0x57, 0x45, 0x42, 0x50])
  else if contentType = "image/gif" then
    decide (imageData.take 6 = [0x47, 0x49, 0x46, 0x38, 0x37, 0x61]) ||
      decide (imageData.take 6 = [0x47, 0x49, 0x46, 0x38, 0x39, 0x61])
  else true

/-- The content type `download_image_to_base64` works with: the lower-cased
header, falling back to the guessed type when the header is absent. -/
def resolvedContentType (ctHeader url : String) : String :=
  if lowerName ctHeader ≠ "" then lowerName ctHeader else lowerName (mimeGuess url)

/-- The pure acceptance decision of `download_image_to_base64` (lines
104-142): URL well-formed, HTTP 200, supported format, and magic bytes
valid.  The network fetch is replaced by the explicit
`(status, contentTypeHeader, body)` triple. -/
def imageAccept (status : Nat) (ctHeader url : String) (body : List Nat) :
    Bool :=
  if !urlHasSchemeNetloc url then false
  else if status ≠ 200 then false
  else if !is_supported_image_format (resolvedContentType ctHeader url) url then
    false
  else if !validate_image_content body (resolvedContentType ctHeader url) then
    false
  else true

/-- **C6** (counterexample): a fetched URL with HTTP 200, Content-Type
`text/html` (present and unsupported), path suffix `.png` and an
arbitrary 8-byte body is accepted — the claim requires the extension
fallback to apply only when the Content-Type is absent, and the body's
magic bytes to match. -/
theorem imageAccept_html_counterexample :
    imageAccept 200 "text/html" "http://example.com/x.png"
        [0, 0, 0, 0, 0, 0, 0, 0] = true ∧
      lowerName "text/html" ∉ SUPPORTED_IMAGE_FORMATS := by
  constructor
  · decide
  · decide

theorem urlHasSchemeNetloc_ne_empty {url : String}
    (h : urlHasSchemeNetloc url = true) : url ≠ "" := by
  intro heq
  subst heq
  exact absurd h (by decide)

/-- **C6** (amended): a fetched image URL is accepted exactly when the URL
carries a scheme and netloc, the HTTP status is 200, the effective
content type (the lower-cased header, or the type guessed from the URL
when the header is absent, defaulting to `application/octet-stream`) is in
{image/png, image/jpeg, image/jpg, image/webp, image/gif} **or** — whether
or not a Content-Type is present — the lower-cased URL path ends in one of
.png/.jpg/.jpeg/.webp/.gif, the body is at least 8 bytes long, and the
magic-byte prefix matches the effective content type for the four known
image families (other content types pass the magic check); a URL failing
any of these is dropped. -/
theorem imageAccept_characterization (status : Nat) (ctHeader url : String)
    (body : List Nat) :
    imageAccept status ctHeader url body = true ↔
      (urlHasSchemeNetloc url = true ∧ status = 200 ∧
        (lowerName (resolvedContentType ctHeader url) ∈ SUPPORTED_IMAGE_FORMATS ∨
          SUPPORTED_EXTENSIONS.any
            (fun ext => ext.data.isSuffixOf (lowerName (urlPath url)).data) = true) ∧
        validate_image_content body (resolvedContentType ctHeader url) = true) := by
  constructor
  · intro h
    unfold imageAccept at h
    split_ifs at h with h1 h2 h3 h4
    simp only [Bool.not_eq_true', Bool.not_eq_false] at h1 h3 h4
    refine ⟨h1, by omega, ?_, h4⟩
    unfold is_supported_image_format at h3
    split_ifs at h3 with g1 g2
    · left
      simp only [Bool.and_eq_true, decide_eq_true_eq] at g1
      exact g1.2
    · right
      exact h3
  · rintro ⟨hu, hs, hsup, hval⟩
    have hurl : url ≠ "" := urlHasSchemeNetloc_ne_empty hu
    have hsup' : is_supported_image_format (resolvedContentType ctHeader url)
        url = true := by
      unfold is_supported_image_format
      rcases hsup with hct | hext
      · have hne : resolvedContentType ctHeader url ≠ "" := by
          unfold resolvedContentType
          split
          · next hhd => exact hhd
          · unfold mimeGuess
            split_ifs <;> decide
        rw [if_pos]
        simp only [Bool.and_eq_true, decide_eq_true_eq]
        exact ⟨hne, hct⟩
      · split_ifs with g1
        · rfl
        · exact hext
    unfold imageAccept
    rw [hu, hs, hsup', hval]
    rfl

/-! ### The image pipeline (`process_chat_images`)

The request payload is modelled by its `messages` list; each message's
content is either a string or a list of parts, a part being an
`image_url` part (with its URL) or anything else.  The concurrent network
fetch is replaced by an explicit `fetch : String → Option String`
(`download_image_to_base64`, returning `data:<mime>;base64,…` on success
and `none` on failure). -/

/-- A content part of a chat message: an `image_url` part or any other
part (opaquely tagged). -/
inductive ChatPart where
  | image (url : String)
  | other (tag : String)
deriving DecidableEq

/-- A message's content: a bare string or a list of parts. -/
inductive ChatContent where
  | str (s : String)
  | parts (ps : List ChatPart)
deriving DecidableEq

/-- A chat message (only the `content` field matters to the pipeline). -/
structure ChatMsg where
  content : ChatContent
deriving DecidableEq

/-- `collect_image_urls_from_content_part`: non-data HTTP(S) URLs of
`image_url` parts. -/
def collect_image_urls_from_content_part : ChatPart → List String
  | .other _ => []
  | .image url =>
    if is_data_url url then []
    else if is_http_url url then [url]
    else []

/-- `collect_image_urls_from_message`: only list-type content is walked. -/
def collect_image_urls_from_message (m : ChatMsg) : List String :=
  match m.content with
  | .parts ps => (ps.map collect_image_urls_from_content_part).flatten
  | _ => []

/-- `apply_downloaded_images_to_content_part`: replace a non-data URL by
its downloaded base64 data URL when the download map has a truthy entry. -/
def apply_downloaded_images_to_content_part (d : String → Option String) :
    ChatPart → ChatPart
  | .other t => .other t
  | .image url =>
    if is_data_url url then .image url
    else
      match d url with
      | some b => if b ≠ "" then .image b else .image url
      | none => .image url

/-- `apply_downloaded_images_to_message`. -/
def apply_downloaded_images_to_message (d : String → Option String)
    (m : ChatMsg) : ChatMsg :=
  match m.content with
  | .parts ps => ⟨.parts (ps.map (apply_downloaded_images_to_content_part d))⟩
  | c => ⟨c⟩

/-- The `url_to_base64` dictionary of `process_chat_images`: defined on
exactly the collected URLs, by fetching. -/
def urlToB64 (fetch : String → Option String) (all : List String) :
    String → Option String :=
  fun u => if u ∈ all then fetch u else none

/-- `process_chat_images`: collect every non-data image URL from all
messages; when none, return the payload unchanged; otherwise fetch them
all and substitute the successful downloads in place. -/
def process_chat_images (fetch : String → Option String)
    (msgs : List ChatMsg) : List ChatMsg :=
  if (msgs.map collect_image_urls_from_message).flatten = [] then msgs
  else
    msgs.map (apply_downloaded_images_to_message
      (urlToB64 fetch ((msgs.map collect_image_urls_from_message).flatten)))

theorem is_data_url_ne_empty {b : String} (h : is_data_url b = true) :
    b ≠ "" := by
  intro heq
  subst heq
  exact absurd h (by decide)

theorem applyPart_image_eq (d : String → Option String) (u : String) :
    apply_downloaded_images_to_content_part d (ChatPart.image u) =
      if is_data_url u then ChatPart.image u
      else
        match d u with
        | some b => if b ≠ "" then ChatPart.image b else ChatPart.image u
        | none => ChatPart.image u := rfl

theorem collectPart_image_eq (u : String) :
    collect_image_urls_from_content_part (ChatPart.image u) =
      if is_data_url u then []
      else if is_http_url u then [u]
      else [] := rfl

theorem collect_apply_sub (d : String → Option String)
    (hd : ∀ u b, d u = some b → is_data_url b = true) (p : ChatPart) :
    collect_image_urls_from_content_part
        (apply_downloaded_images_to_content_part d p) =
      collect_image_urls_from_content_part p ∨
    collect_image_urls_from_content_part
        (apply_downloaded_images_to_content_part d p) = [] := by
  cases p with
  | other t => left; rfl
  | image url =>
    rw [applyPart_image_eq]
    by_cases hdat : is_data_url url
    · rw [if_pos hdat]
      left
      rfl
    · rw [if_neg hdat]
      cases hdu : d url with
      | none => left; rfl
      | some b =>
        show collect_image_urls_from_content_part
            (if b ≠ "" then ChatPart.image b else ChatPart.image url) = _ ∨
          collect_image_urls_from_content_part
            (if b ≠ "" then ChatPart.image b else ChatPart.image url) = []
        by_cases hb : b ≠ ""
        · rw [if_pos hb]
          right
          rw [collectPart_image_eq, if_pos (hd url b hdu)]
        · rw [if_neg hb]
          left
          rfl

theorem allUrls_apply_sub (fetch : String → Option String)
    (hfetch : ∀ u b, fetch u = some b → is_data_url b = true)
    (all1 : List String) (msgs : List ChatMsg) (u : String)
    (hu : u ∈ ((msgs.map (apply_downloaded_images_to_message
        (urlToB64 fetch all1))).map collect_image_urls_from_message).flatten) :
    u ∈ (msgs.map collect_image_urls_from_message).flatten := by
  have hd : ∀ v b, urlToB64 fetch all1 v = some b → is_data_url b = true := by
    intro v b h
    unfold urlToB64 at h
    split at h
    · exact hfetch v b h
    · exact absurd h (by simp)
  simp only [List.mem_flatten, List.mem_map] at hu ⊢
  obtain ⟨l, ⟨m', ⟨m, hm, rfl⟩, rfl⟩, hul⟩ := hu
  refine ⟨collect_image_urls_from_message m, ⟨m, hm, rfl⟩, ?_⟩
  unfold apply_downloaded_images_to_message at hul
  cases hc : m.content with
  | str s =>
    rw [hc] at hul
    simp only [collect_image_urls_from_message, hc] at hul ⊢
    exact hul
  | parts ps =>
    rw [hc] at hul
    simp only [collect_image_urls_from_message, hc] at hul ⊢
    simp only [List.mem_flatten, List.mem_map] at hul ⊢
    obtain ⟨l', ⟨p', ⟨p, hp, rfl⟩, rfl⟩, hul'⟩ := hul
    refine ⟨collect_image_urls_from_content_part p, ⟨p, hp, rfl⟩, ?_⟩
    rcases collect_apply_sub (urlToB64 fetch all1) hd p with he | he
    · rw [he] at hul'
      exact hul'
    · rw [he] at hul'
      exact absurd hul' (List.not_mem_nil u)

theorem applyPart_idem (d1 d2 : String → Option String)
    (hd1 : ∀ u b, d1 u = some b → is_data_url b = true)
    (hsub : ∀ u, d2 u = d1 u ∨ d2 u = none) (p : ChatPart) :
    apply_downloaded_images_to_content_part d2
        (apply_downloaded_images_to_content_part d1 p) =
      apply_downloaded_images_to_content_part d1 p := by
  cases p with
  | other t => rfl
  | image url =>
    rw [applyPart_image_eq d1]
    by_cases hdat : is_data_url url
    · rw [if_pos hdat, applyPart_image_eq, if_pos hdat]
    · rw [if_neg hdat]
      cases hdu : d1 url with
      | none =>
        show apply_downloaded_images_to_content_part d2 (ChatPart.image url) =
          ChatPart.image url
        rw [applyPart_image_eq, if_neg hdat]
        rcases hsub url with hs | hs
        · rw [hs, hdu]
        · rw [hs]
      | some b =>
        show apply_downloaded_images_to_content_part d2
            (if b ≠ "" then ChatPart.image b else ChatPart.image url) =
          (if b ≠ "" then ChatPart.image b else ChatPart.image url)
        by_cases hb : b ≠ ""
        · rw [if_pos hb, applyPart_image_eq, if_pos (hd1 url b hdu)]
        · rw [if_neg hb, applyPart_image_eq, if_neg hdat]
          rcases hsub url with hs | hs
          · rw [hs, hdu]
            show (if b ≠ "" then ChatPart.image b else ChatPart.image url) =
              ChatPart.image url
            rw [if_neg hb]
          · rw [hs]

theorem applyMsg_idem (d1 d2 : String → Option String)
    (hd1 : ∀ u b, d1 u = some b → is_data_url b = true)
    (hsub : ∀ u, d2 u = d1 u ∨ d2 u = none) (m : ChatMsg) :
    apply_downloaded_images_to_message d2
        (apply_downloaded_images_to_message d1 m) =
      apply_downloaded_images_to_message d1 m := by
  unfold apply_downloaded_images_to_message
  cases hc : m.content with
  | str s => rfl
  | parts ps =>
    simp only []
    congr 1
    rw [List.map_map]
    congr 1
    apply List.map_congr_left
    intro p _
    exact applyPart_idem d1 d2 hd1 hsub p

/-- **C9**: the image pipeline is idempotent — applying
`process_chat_images` twice (with the same deterministic fetch, which as
in `download_image_to_base64` returns `data:` URLs) gives the same result
as applying it once; and on a payload all of whose image URLs are already
`data:` URLs it returns the payload unchanged. -/
theorem process_chat_images_idempotent (fetch : String → Option String)
    (msgs : List ChatMsg)
    (hfetch : ∀ u b, fetch u = some b → is_data_url b = true) :
    process_chat_images fetch (process_chat_images fetch msgs) =
        process_chat_images fetch msgs ∧
      ((∀ m ∈ msgs, ∀ ps, m.content = ChatContent.parts ps →
          ∀ url, ChatPart.image url ∈ ps → is_data_url url = true) →
        process_chat_images fetch msgs = msgs) := by
  constructor
  · by_cases h0 : (msgs.map collect_image_urls_from_message).flatten = []
    · have h1 : process_chat_images fetch msgs = msgs := by
        unfold process_chat_images
        rw [if_pos h0]
      rw [h1]
      exact h1
    · have h1 : process_chat_images fetch msgs =
          msgs.map (apply_downloaded_images_to_message
            (urlToB64 fetch ((msgs.map collect_image_urls_from_message).flatten))) := by
        unfold process_chat_images
        rw [if_neg h0]
      rw [h1]
      set all1 := (msgs.map collect_image_urls_from_message).flatten with hall1
      set P1 := msgs.map (apply_downloaded_images_to_message
        (urlToB64 fetch all1)) with hP1
      by_cases h2 : (P1.map collect_image_urls_from_message).flatten = []
      · unfold process_chat_images
        rw [if_pos h2]
      · unfold process_chat_images
        rw [if_neg h2]
        have hd1 : ∀ u b, urlToB64 fetch all1 u = some b →
            is_data_url b = true := by
          intro u b h
          unfold urlToB64 at h
          split at h
          · exact hfetch u b h
          · exact absurd h (by simp)
        have hsub : ∀ u,
            urlToB64 fetch ((P1.map collect_image_urls_from_message).flatten) u =
              urlToB64 fetch all1 u ∨
            urlToB64 fetch ((P1.map collect_image_urls_from_message).flatten) u =
              none := by
          intro u
          unfold urlToB64
          by_cases hmem : u ∈ (P1.map collect_image_urls_from_message).flatten
          · left
            rw [if_pos hmem,
              if_pos (allUrls_apply_sub fetch hfetch all1 msgs u (hP1 ▸ hmem))]
          · right
            rw [if_neg hmem]
        rw [hP1, List.map_map]
        apply List.map_congr_left
        intro m _
        exact applyMsg_idem (urlToB64 fetch all1) _ hd1 hsub m
  · intro hall
    have h0 : (msgs.map collect_image_urls_from_message).flatten = [] := by
      rw [List.flatten_eq_nil_iff]
      intro l hl
      simp only [List.mem_map] at hl
      obtain ⟨m, hm, rfl⟩ := hl
      unfold collect_image_urls_from_message
      cases hc : m.content with
      | str s => rfl
      | parts ps =>
        simp only []
        rw [List.flatten_eq_nil_iff]
        intro l' hl'
        simp only [List.mem_map] at hl'
        obtain ⟨p, hp, rfl⟩ := hl'
        cases p with
        | other t => rfl
        | image url =>
          rw [collectPart_image_eq, if_pos (hall m hm ps hc url hp)]
    unfold process_chat_images
    rw [if_pos h0]

/-- A deterministic fetch that always succeeds with a fixed data URL. -/
def constFetch : String → Option String :=
  fun _ => some "data:image/png;base64,AA=="

/-- A sample payload with one remote image URL and one data URL. -/
def sampleMsgs : List ChatMsg :=
  [⟨ChatContent.parts [ChatPart.image "http://example.com/a.png",
      ChatPart.image "data:image/png;base64,BB=="]⟩,
   ⟨ChatContent.str "hello"⟩]

/-- Witness for **C9** at a concrete payload and fetch function. -/
theorem process_chat_images_idempotent_witness :
    process_chat_images constFetch (process_chat_images constFetch sampleMsgs) =
      process_chat_images constFetch sampleMsgs :=
  (process_chat_images_idempotent constFetch sampleMsgs
    (by
      intro u b h
      rw [← Option.some.inj h]
      decide)).1

/-! ### LLMIR ↔ Argo converters
(`src/argoproxy/llmir/atomic_ops.py`, `complex_ops.py`)

The IR message model follows `llmir.types.ir`; raised `ValueError` /
`NotImplementedError` become `Except.error` carrying the message string.
Strings occurring in Python `str(dict)` fall-backs are modelled without
quote escaping (none of the claims exercises quotes inside them). -/

/-- An IR tool call part's payload (`{id, name, arguments}` with the
arguments JSON-encoded, OpenAI style). -/
structure IRToolCall where
  id : String
  name : String
  args : String
deriving DecidableEq

/-- An Argo/OpenAI wire tool call
(`{id, type: "function", function: {name, arguments}}`). -/
structure PToolCall where
  id : String
  name : String
  args : String
deriving DecidableEq

/-- Modelled from the spec: the llmir OpenAI-family atomic tool-call
converter `ir_tool_call_to_p` (package `llmir`, not under `src/`); §4.B
requires the conversion to be lossless and id-preserving. -/
def ir_tool_call_to_p (tc : IRToolCall) : PToolCall :=
  ⟨tc.id, tc.name, tc.args⟩

/-- Modelled from the spec: the llmir OpenAI-family atomic tool-call
converter `p_tool_call_to_ir` (package `llmir`, not under `src/`). -/
def p_tool_call_to_ir (p : PToolCall) : IRToolCall :=
  ⟨p.id, p.name, p.args⟩

/-- The `image_data` payload of an IR Image part. -/
structure ImgData where
  data : String
  mediaType : Option String
deriving DecidableEq

/-- An IR content part (tagged variant of `llmir.types.ir`). -/
inductive IRPart where
  | text (s : String)
  | image (imageUrl : Option String) (imageData : Option ImgData)
      (detail : Option String)
  | file
  | toolCall (tc : IRToolCall)
  | toolResult (toolCallId : String) (content : String)
deriving DecidableEq

/-- An Argo-side content part as produced/consumed by the converters:
a `{type:"text"}` dict, a `{type:"image_url"}` dict, an OpenAI-format
tool-call dict (whose `type` is `"function"`), or the
`{role:"tool", …}` dict produced by `ir_tool_result_to_p` (which carries
no `type` key at all). -/
inductive ArgoPart where
  | text (s : String)
  | imageUrl (url : String) (detail : String)
  | toolCallPart (tc : PToolCall)
  | toolResultMsg (toolCallId : String) (content : String)
deriving DecidableEq

/-- The error message of `ir_image_to_p` for HTTP(S) URLs
(atomic_ops.py:121-125). -/
def argoUnsupportedMsg (url : String) : String :=
  "Argo does not support HTTP/HTTPS image URLs. " ++
  "Please use utils.image_processing.process_chat_images() " ++
  "to convert the URL to base64 first. URL: " ++ url.take 100 ++ "..."

/-- `ArgoAtomicOps.ir_image_to_p`: emit an OpenAI-style `image_url` part;
raise (`Except.error`) on HTTP(S) URLs and on parts without any image
payload.  A present-but-empty `image_url` string is falsy in the source
and falls through to `image_data`. -/
def ir_image_to_p (imageUrl : Option String) (imageData : Option ImgData)
    (detail : Option String) : Except String ArgoPart :=
  if imageUrl.getD "" ≠ "" then
    if is_http_url (imageUrl.getD "") then
      Except.error (argoUnsupportedMsg (imageUrl.getD ""))
    else
      Except.ok (ArgoPart.imageUrl (imageUrl.getD "") (detail.getD "auto"))
  else
    match imageData with
    | some d =>
      Except.ok (ArgoPart.imageUrl
        ("data:" ++ d.mediaType.getD "image/jpeg" ++ ";base64," ++ d.data)
        (detail.getD "auto"))
    | none => Except.error "ImagePart must have either image_url or image_data"

/-- `ArgoAtomicOps.ir_file_to_p`: always raises `NotImplementedError`. -/
def ir_file_to_p : Except String ArgoPart :=
  Except.error ("File handling is not yet implemented. " ++
    "The upstream LLMIR converters do not provide file conversion functionality.")

/-- `ArgoComplexOps.ir_content_part_to_p`: dispatch on the part type,
catching any conversion error and replacing the part with a
`[Conversion Error: …]` text part plus a warning (complex_ops.py:107-135). -/
def ir_content_part_to_p (p : IRPart) : ArgoPart × List String :=
  match p with
  | .text s => (ArgoPart.text s, [])
  | .image iu idata det =>
    match ir_image_to_p iu idata det with
    | .ok a => (a, [])
    | .error e =>
      (ArgoPart.text ("[Conversion Error: " ++ e ++ "]"),
       ["Error converting content part: " ++ e])
  | .file =>
    match ir_file_to_p with
    | .ok a => (a, [])
    | .error e =>
      (ArgoPart.text ("[Conversion Error: " ++ e ++ "]"),
       ["Error converting content part: " ++ e])
  | .toolCall tc => (ArgoPart.toolCallPart (ir_tool_call_to_p tc), [])
  | .toolResult tid c => (ArgoPart.toolResultMsg tid c, [])

/-- An IR message (`role`, content part list, and the optional `name`,
`tool_call_id` and `tool_calls` fields; a missing field is `none`). -/
structure IRMessage where
  role : String
  content : List IRPart
  name : Option String
  toolCallId : Option String
  toolCalls : Option (List IRToolCall)
deriving DecidableEq

/-- An Argo message's `content` value: a bare string, a list of parts,
or null/absent. -/
inductive ArgoMsgContent where
  | str (s : String)
  | parts (ps : List ArgoPart)
  | null
deriving DecidableEq

/-- An Argo wire message. -/
structure ArgoMessage where
  role : String
  content : ArgoMsgContent
  name : Option String
  toolCallId : Option String
  toolCalls : Option (List PToolCall)
deriving DecidableEq

/-- `ArgoComplexOps.ir_message_to_p` for list-shaped IR content (the IR
invariant): convert each part (collecting warnings); a single converted
part whose wire `type` is `"text"` is simplified to a bare string;
`tool_calls`, `name` and `tool_call_id` are copied when present. -/
def ir_message_to_p (m : IRMessage) : ArgoMessage × List String :=
  ({ role := m.role
     content :=
       match m.content.map (fun p => (ir_content_part_to_p p).1) with
       | [ArgoPart.text s] => ArgoMsgContent.str s
       | ps => ArgoMsgContent.parts ps
     name := m.name
     toolCallId := m.toolCallId
     toolCalls := m.toolCalls.map (fun tcs => tcs.map ir_tool_call_to_p) },
   (m.content.map (fun p => (ir_content_part_to_p p).2)).flatten)

/-- Parse of the data-URL regex `data:([^;]+);base64,(.+)` in
`p_image_to_ir` (`re.match`, so a prefix match; `.` stops at a newline). -/
def parseDataUrl (url : String) : Option (String × String) :=
  if "data:".data.isPrefixOf url.data then
    if (url.data.drop 5).takeWhile (· ≠ ';') ≠ [] ∧
        ";base64,".data.isPrefixOf
          ((url.data.drop 5).dropWhile (· ≠ ';')) then
      if ((((url.data.drop 5).dropWhile (· ≠ ';')).drop 8).takeWhile (· ≠ '\n')) ≠ [] then
        some (⟨(url.data.drop 5).takeWhile (· ≠ ';')⟩,
              ⟨(((url.data.drop 5).dropWhile (· ≠ ';')).drop 8).takeWhile (· ≠ '\n')⟩)
      else none
    else none
  else none

/-- Simplified Python `repr` of a string (no escaping; the fall-back
branches this feeds are exercised with quote-free strings only). -/
def pyStr (s : String) : String := "'" ++ s ++ "'"

/-- `str(dict)` of an OpenAI-format tool-call dict, as hit by the
unknown-type fall-back of `p_content_part_to_ir`. -/
def pyReprToolCall (tc : PToolCall) : String :=
  "\x7b'id': " ++ pyStr tc.id ++
  ", 'type': 'function', 'function': \x7b'name': " ++
  pyStr tc.name ++ ", 'arguments': " ++ pyStr tc.args ++ "\x7d\x7d"

/-- `str(dict)` of the `{role:"tool", …}` dict produced by
`ir_tool_result_to_p`, as hit by the unknown-type fall-back. -/
def pyReprToolResult (tid c : String) : String :=
  "\x7b'role': 'tool', 'tool_call_id': " ++ pyStr tid ++
  ", 'content': " ++ pyStr c ++ "\x7d"

/-- `ArgoAtomicOps.p_content_part_to_ir`: strings and `{type:"text"}`
dicts become text parts; `{type:"image_url"}` dicts are parsed (data URLs
into `image_data`, anything else kept as `image_url`); a dict whose
`type` is neither of the four known tags — which includes the OpenAI
tool-call dict (`type:"function"`) and the tool-result dict (no `type`
key) — is stringified into a text part. -/
def p_content_part_to_ir (p : ArgoPart) : List IRPart :=
  match p with
  | .text s => [IRPart.text s]
  | .imageUrl url det =>
    match parseDataUrl url with
    | some md => [IRPart.image none (some ⟨md.2, some md.1⟩) (some det)]
    | none => [IRPart.image (some url) none (some det)]
  | .toolCallPart tc => [IRPart.text (pyReprToolCall tc)]
  | .toolResultMsg tid c => [IRPart.text (pyReprToolResult tid c)]

/-- `ArgoComplexOps.p_message_to_ir`. -/
def p_message_to_ir (pm : ArgoMessage) : IRMessage :=
  { role := pm.role
    content :=
      match pm.content with
      | .str s => [IRPart.text s]
      | .parts ps => (ps.map p_content_part_to_ir).flatten
      | .null => []
    name := pm.name
    toolCallId := pm.toolCallId
    toolCalls := pm.toolCalls.map (fun tcs => tcs.map p_tool_call_to_ir) }

/-- Helper: flattening singleton images of a map. -/
theorem flatten_map_singleton {α β : Type} (l : List α) (f : α → β) :
    (l.map (fun x => [f x])).flatten = l.map f := by
  induction l with
  | nil => rfl
  | cons x xs ih => simp [ih]

/-- Helper: a list of text parts is the text-map of its strings. -/
theorem exists_text_strings (l : List IRPart)
    (h : ∀ p ∈ l, ∃ s, p = IRPart.text s) :
    ∃ ss : List String, l = ss.map IRPart.text := by
  induction l with
  | nil => exact ⟨[], rfl⟩
  | cons p ps ih =>
    obtain ⟨s, rfl⟩ := h p (List.mem_cons_self p ps)
    obtain ⟨ss, rfl⟩ := ih (fun q hq => h q (List.mem_cons_of_mem _ hq))
    exact ⟨s :: ss, rfl⟩

/-- **C1** (counterexample): an IR message whose single content part is an
Image with a data URL does not round-trip — the wire form re-parses the
data URL into the `image_data` variant, which is not among the documented
normalisations (and the listed fields are untouched). -/
theorem message_roundtrip_image_counterexample :
    p_message_to_ir
        (ir_message_to_p
          ⟨"user", [IRPart.image (some "data:image/png;base64,AA") none
            (some "low")], none, none, none⟩).1 ≠
      ⟨"user", [IRPart.image (some "data:image/png;base64,AA") none
        (some "low")], none, none, none⟩ := by
  decide

/-- **C1** (amended): for every IR message all of whose content parts are
text parts, converting to the Argo wire format and back is the identity —
in particular one text part goes out as a bare string and comes back as a
single text part, zero or several parts go out in `{type:"text",text}`
form, and `role`, `name`, `tool_call_id` and `tool_calls` are preserved
unchanged.  (Messages with image or tool-result parts are not restored
identically: see the counterexample.) -/
theorem message_roundtrip_text (m : IRMessage)
    (htext : ∀ p ∈ m.content, ∃ s, p = IRPart.text s) :
    p_message_to_ir (ir_message_to_p m).1 = m := by
  obtain ⟨role, content, name, tcid, tcs⟩ := m
  obtain ⟨ss, rfl⟩ := exists_text_strings content htext
  have hcomp : (p_tool_call_to_ir ∘ ir_tool_call_to_p) =
      (id : IRToolCall → IRToolCall) := by
    funext tc
    rfl
  have htc : (tcs.map (fun l => l.map ir_tool_call_to_p)).map
      (fun l => l.map p_tool_call_to_ir) = tcs := by
    cases tcs with
    | none => rfl
    | some l =>
      simp only [Option.map_some', Option.some.injEq, List.map_map, hcomp,
        List.map_id]
  match ss with
  | [] =>
    simp only [ir_message_to_p, p_message_to_ir, List.map_nil,
      List.flatten_nil, htc]
  | [s] =>
    simp only [ir_message_to_p, p_message_to_ir, List.map_cons, List.map_nil,
      ir_content_part_to_p, htc]
  | s1 :: s2 :: rest =>
    simp only [ir_message_to_p, p_message_to_ir, List.map_cons,
      ir_content_part_to_p, htc, List.map_map, p_content_part_to_ir,
      List.flatten_cons, IRMessage.mk.injEq, and_true, true_and]
    show [IRPart.text s1] ++ ([IRPart.text s2] ++
        (rest.map (fun x => [IRPart.text x])).flatten) = _
    rw [flatten_map_singleton]
    rfl

/-- Witness for **C1** (amended) on a two-text-part assistant message
carrying `name`, `tool_call_id` and one tool call. -/
theorem message_roundtrip_text_witness :
    p_message_to_ir
        (ir_message_to_p
          ⟨"assistant", [IRPart.text "a", IRPart.text "b"], some "nm",
            some "tc1", some [⟨"call_1", "f", "{}"⟩]⟩).1 =
      ⟨"assistant", [IRPart.text "a", IRPart.text "b"], some "nm",
        some "tc1", some [⟨"call_1", "f", "{}"⟩]⟩ :=
  message_roundtrip_text
    ⟨"assistant", [IRPart.text "a", IRPart.text "b"], some "nm",
      some "tc1", some [⟨"call_1", "f", "{}"⟩]⟩
    (by
      intro p hp
      simp only [List.mem_cons, List.not_mem_nil, or_false] at hp
      rcases hp with rfl | rfl
      · exact ⟨"a", rfl⟩
      · exact ⟨"b", rfl⟩)

/-! ### Response conversion (`p_response_to_ir`, complex_ops.py:320-403) -/

/-- The Argo `response` field: a bare string, an object with optional
`content` and `tool_calls`, or null/absent. -/
inductive RespField where
  | str (s : String)
  | obj (content : Option String) (toolCalls : Option (List PToolCall))
  | null
deriving DecidableEq

/-- An Argo chat response (fields the converter reads; `usage` is copied
opaquely). -/
structure ArgoResponse where
  response : RespField
  id : Option String
  created : Option Nat
  model : Option String
  usage : Option String
deriving DecidableEq

/-- Content parts of the IR response message: a text part when the
response carries truthy textual content. -/
def respMessageParts : RespField → List IRPart
  | .str s => [IRPart.text s]
  | .obj c _ =>
    match c with
    | some s => if s ≠ "" then [IRPart.text s] else []
    | none => []
  | .null => []

/-- The `tool_calls` of the IR response message: set only when the
upstream object carries a truthy (non-empty) `tool_calls` list. -/
def respMessageToolCalls : RespField → Option (List IRToolCall)
  | .obj _ (some l) => if l ≠ [] then some (l.map p_tool_call_to_ir) else none
  | _ => none

/-- The assistant message `p_response_to_ir` assembles. -/
def respIRMessage (r : RespField) : IRMessage :=
  { role := "assistant", content := respMessageParts r, name := none,
    toolCallId := none, toolCalls := respMessageToolCalls r }

/-- `finish_reason` determination of `p_response_to_ir`
(complex_ops.py:381-384): `"tool_calls"` when the message carries a truthy
`tool_calls` entry, `"stop"` otherwise. -/
def respFinishReason (m : IRMessage) : String :=
  if m.toolCalls.getD [] ≠ [] then "tool_calls" else "stop"

/-- One choice of an IR response. -/
structure IRChoice where
  index : Nat
  message : IRMessage
  finishReason : String
deriving DecidableEq

/-- An IR response. -/
structure IRResponse where
  id : String
  object : String
  created : Nat
  model : String
  choices : List IRChoice
  usage : Option String
deriving DecidableEq

/-- `ArgoComplexOps.p_response_to_ir`; the impure defaults
(`uuid.uuid4().hex`, `time.time()`) are passed explicitly. -/
def p_response_to_ir (freshId : String) (now : Nat) (r : ArgoResponse) :
    IRResponse :=
  { id := r.id.getD freshId
    object := "response"
    created := r.created.getD now
    model := r.model.getD "unknown"
    choices := [{ index := 0, message := respIRMessage r.response,
                  finishReason := respFinishReason (respIRMessage r.response) }]
    usage := r.usage }

/-- **C5**: finish-reason invariant of response conversion — in every
choice produced by `p_response_to_ir`, the finish reason is
`"tool_calls"` exactly when the choice's message carries a non-empty
`tool_calls` list (in particular when content is null and tool calls are
present), and `"stop"` exactly when it carries none. -/
theorem p_response_finish_reason (freshId : String) (now : Nat)
    (r : ArgoResponse) (ch : IRChoice)
    (hch : ch ∈ (p_response_to_ir freshId now r).choices) :
    (ch.finishReason = "tool_calls" ↔ ch.message.toolCalls.getD [] ≠ []) ∧
      (ch.finishReason = "stop" ↔ ch.message.toolCalls.getD [] = []) := by
  simp only [p_response_to_ir, List.mem_cons, List.not_mem_nil, or_false]
    at hch
  subst hch
  simp only [respFinishReason]
  by_cases h : (respIRMessage r.response).toolCalls.getD [] ≠ []
  · rw [if_pos h]
    constructor
    · exact ⟨fun _ => h, fun _ => rfl⟩
    · constructor
      · intro hs
        exact absurd hs (by decide)
      · intro he
        exact absurd he h
  · rw [if_neg h]
    push_neg at h
    constructor
    · constructor
      · intro hs
        exact absurd hs (by decide)
      · intro hne
        exact absurd h hne
    · exact ⟨fun _ => h, fun _ => rfl⟩

/-- Witness for **C5** on a response whose `content` is null and which
carries one tool call (finish reason `"tool_calls"`), instantiating the
theorem at the concrete produced choice. -/
theorem p_response_finish_reason_witness :
    ((⟨0, respIRMessage (RespField.obj none (some [⟨"toolu_1", "search", "{}"⟩])),
        respFinishReason (respIRMessage (RespField.obj none
          (some [⟨"toolu_1", "search", "{}"⟩])))⟩ : IRChoice).finishReason =
          "tool_calls" ↔
        (⟨0, respIRMessage (RespField.obj none (some [⟨"toolu_1", "search", "{}"⟩])),
          respFinishReason (respIRMessage (RespField.obj none
            (some [⟨"toolu_1", "search", "{}"⟩])))⟩ : IRChoice).message.toolCalls.getD
          [] ≠ []) ∧
      ((⟨0, respIRMessage (RespField.obj none (some [⟨"toolu_1", "search", "{}"⟩])),
          respFinishReason (respIRMessage (RespField.obj none
            (some [⟨"toolu_1", "search", "{}"⟩])))⟩ : IRChoice).finishReason =
            "stop" ↔
        (⟨0, respIRMessage (RespField.obj none (some [⟨"toolu_1", "search", "{}"⟩])),
          respFinishReason (respIRMessage (RespField.obj none
            (some [⟨"toolu_1", "search", "{}"⟩])))⟩ : IRChoice).message.toolCalls.getD
          [] = []) :=
  p_response_finish_reason "fid" 0
    ⟨RespField.obj none (some [⟨"toolu_1", "search", "{}"⟩]),
      none, none, none, none⟩
    ⟨0, respIRMessage (RespField.obj none (some [⟨"toolu_1", "search", "{}"⟩])),
      respFinishReason (respIRMessage (RespField.obj none
        (some [⟨"toolu_1", "search", "{}"⟩])))⟩
    (by simp [p_response_to_ir])

/-! ### Unsupported image sources (**C7**) -/

theorem is_http_url_ne_empty {url : String} (h : is_http_url url = true) :
    url ≠ "" := by
  intro heq
  subst heq
  exact absurd h (by decide)

/-- **C7** (counterexample): at the complex-ops layer an IR Image part
with an HTTP URL does **not** fail the request — the error is caught and
the part is replaced by a `[Conversion Error: …]` text part. -/
theorem ir_content_part_http_image_replaced :
    (ir_content_part_to_p
        (IRPart.image (some "http://example.com/x.png") none none)).1 =
      ArgoPart.text
        ("[Conversion Error: " ++
          argoUnsupportedMsg "http://example.com/x.png" ++ "]") := by
  rfl

/-- **C7** (amended): for every IR Image part carrying an `http://` or
`https://` URL, the atomic converter `ir_image_to_p` fails with the
unsupported-image-source `ValueError`; `ArgoComplexOps.ir_content_part_to_p`
however catches that error and substitutes a `[Conversion Error: …]` text
part together with a warning, so on this path the part **is** replaced and
no HTTP 400 is produced (the error-to-400 mapping applies only where the
error propagates uncaught, as in the `llmir_impl` converter path whose
chat handler maps `ValueError` to `HTTPStatus.BAD_REQUEST`). -/
theorem ir_image_http_fails (url : String) (idata : Option ImgData)
    (detail : Option String) (h : is_http_url url = true) :
    ir_image_to_p (some url) idata detail =
        Except.error (argoUnsupportedMsg url) ∧
      ir_content_part_to_p (IRPart.image (some url) idata detail) =
        (ArgoPart.text ("[Conversion Error: " ++ argoUnsupportedMsg url ++ "]"),
         ["Error converting content part: " ++ argoUnsupportedMsg url]) := by
  have hne : (some url : Option String).getD "" ≠ "" := by
    simp only [Option.getD_some]
    exact is_http_url_ne_empty h
  have h1 : ir_image_to_p (some url) idata detail =
      Except.error (argoUnsupportedMsg url) := by
    unfold ir_image_to_p
    rw [if_pos hne]
    simp only [Option.getD_some]
    rw [if_pos h]
  refine ⟨h1, ?_⟩
  show (match ir_image_to_p (some url) idata detail with
        | .ok a => (a, [])
        | .error e =>
          (ArgoPart.text ("[Conversion Error: " ++ e ++ "]"),
           ["Error converting content part: " ++ e])) = _
  rw [h1]

/-- Witness for **C7** (amended) at a concrete HTTP image URL. -/
theorem ir_image_http_fails_witness :
    ir_image_to_p (some "https://example.com/a.jpg") none none =
        Except.error (argoUnsupportedMsg "https://example.com/a.jpg") ∧
      ir_content_part_to_p
          (IRPart.image (some "https://example.com/a.jpg") none none) =
        (ArgoPart.text ("[Conversion Error: " ++
            argoUnsupportedMsg "https://example.com/a.jpg" ++ "]"),
         ["Error converting content part: " ++
            argoUnsupportedMsg "https://example.com/a.jpg"]) :=
  ir_image_http_fails "https://example.com/a.jpg" none none (by decide)

/-! ### Character-list text utilities

Shared machinery for the two regex-driven extractors
(`tool_calls/google_helpers.py` and `tool_calls/leaked_tool_parser.py`):
text is modelled as `List Char`. -/

/-- Literal-pattern test: `startsWithL pat l` holds when `pat` is an initial
segment of `l`. -/
def startsWithL : List Char → List Char → Bool
  | [], _ => true
  | _ :: _, [] => false
  | p :: ps, c :: cs => p = c && startsWithL ps cs

/-- Substring containment, as Python `pat in s`. -/
def containsL (pat : List Char) : List Char → Bool
  | [] => pat.isEmpty
  | c :: rest => startsWithL pat (c :: rest) || containsL pat rest

/-- Whitespace for Python's `\s` and `str.strip()` over the Latin-1 range
(space, tab, LF, CR, VT, FF, the 0x1c–0x1f separators, NEL, NBSP);
whitespace-only code points above that range are outside the model. -/
def pyIsSpace (c : Char) : Bool :=
  c = ' ' || c = '\t' || c = '\n' || c = '\r' ||
  c = Char.ofNat 11 || c = Char.ofNat 12 ||
  (28 ≤ c.toNat && c.toNat ≤ 31) || c.toNat = 133 || c.toNat = 160

/-- Python `str.strip()` with no argument. -/
def pyStrip (l : List Char) : List Char :=
  ((l.dropWhile pyIsSpace).reverse.dropWhile pyIsSpace).reverse

/-- Decimal digit character. -/
def digitChar (d : Nat) : Char := Char.ofNat (48 + d)

def natDecAux : Nat → Nat → List Char
  | 0, _ => []
  | fuel + 1, n =>
    if n < 10 then [digitChar n]
    else natDecAux fuel (n / 10) ++ [digitChar (n % 10)]

/-- Decimal rendering of a natural number, as Python `str(i)` / an f-string
slot for a non-negative integer. -/
def natDec (n : Nat) : List Char := natDecAux (n + 1) n

/-- Decimal rendering of an integer. -/
def intDec (i : Int) : List Char :=
  if i < 0 then '-' :: natDec i.natAbs else natDec i.natAbs

def hexDigit (d : Nat) : Char :=
  if d < 10 then digitChar d else Char.ofNat (87 + d)

def hex4 (n : Nat) : List Char :=
  [hexDigit (n / 4096 % 16), hexDigit (n / 256 % 16),
   hexDigit (n / 16 % 16), hexDigit (n % 16)]

/-! ### JSON model (Python `json` stdlib)

Modelled from the Python standard library `json` module, which is not part
of this repository: a strict RFC-8259 parser (`json.loads`) and the default
serializer (`json.dumps`, `ensure_ascii=True`, separators `", "` and
`": "`).  Restrictions of the model, each strictly narrowing the accepted
inputs: numerals are integers only (fractional/exponent numerals are
rejected rather than parsed as floats), the `NaN`/`Infinity` extensions are
rejected, and lone-surrogate `\u` escapes (which CPython accepts) are
rejected. -/

inductive JVal where
  | null : JVal
  | bool (b : Bool) : JVal
  | int (i : Int) : JVal
  | str (s : List Char) : JVal
  | arr (xs : List JVal) : JVal
  | obj (kvs : List (List Char × JVal)) : JVal

/-- Parser mode: a plain value, the members of an object, or the elements
of an array (with the pairs/values already read). -/
inductive JMode where
  | val : JMode
  | members (acc : List (List Char × JVal)) : JMode
  | elems (acc : List JVal) : JMode

/-- JSON insignificant whitespace (RFC 8259: space, tab, LF, CR). -/
def jIsWS (c : Char) : Bool :=
  c = ' ' || c = '\t' || c = '\n' || c = '\r'

def isDigitC (c : Char) : Bool := '0' ≤ c && c ≤ '9'

/-- Object-member insertion with Python `dict` semantics: a duplicate key
keeps its first position and takes the last value. -/
def jUpsert (k : List Char) (v : JVal) :
    List (List Char × JVal) → List (List Char × JVal)
  | [] => [(k, v)]
  | (k0, v0) :: rest =>
    if k0 = k then (k0, v) :: rest else (k0, v0) :: jUpsert k v rest

def hexVal (c : Char) : Option Nat :=
  if isDigitC c then some (c.toNat - 48)
  else if 'a' ≤ c ∧ c ≤ 'f' then some (c.toNat - 87)
  else if 'A' ≤ c ∧ c ≤ 'F' then some (c.toNat - 55)
  else none

/-- String body after the opening quote: plain characters until the closing
quote, with the nine JSON escapes and `\uXXXX`; unescaped control
characters are rejected (`json.loads` default `strict=True`). -/
def jStrRest : Nat → List Char → List Char → Option (List Char × List Char)
  | 0, _, _ => none
  | fuel + 1, acc, l =>
    match l with
    | [] => none
    | '"' :: rest => some (acc.reverse, rest)
    | '\\' :: e :: rest =>
      if e = '"' then jStrRest fuel ('"' :: acc) rest
      else if e = '\\' then jStrRest fuel ('\\' :: acc) rest
      else if e = '/' then jStrRest fuel ('/' :: acc) rest
      else if e = 'n' then jStrRest fuel ('\n' :: acc) rest
      else if e = 't' then jStrRest fuel ('\t' :: acc) rest
      else if e = 'r' then jStrRest fuel ('\r' :: acc) rest
      else if e = 'b' then jStrRest fuel (Char.ofNat 8 :: acc) rest
      else if e = 'f' then jStrRest fuel (Char.ofNat 12 :: acc) rest
      else if e = 'u' then
        match rest with
        | h1 :: h2 :: h3 :: h4 :: rest2 =>
          match hexVal h1, hexVal h2, hexVal h3, hexVal h4 with
          | some a, some b, some c, some d =>
            if 0xD800 ≤ a * 4096 + b * 256 + c * 16 + d ∧
                a * 4096 + b * 256 + c * 16 + d < 0xE000 then none
            else jStrRest fuel
              (Char.ofNat (a * 4096 + b * 256 + c * 16 + d) :: acc) rest2
          | _, _, _, _ => none
        | _ => none
      else none
    | c :: rest =>
      if c.toNat < 32 then none else jStrRest fuel (c :: acc) rest

def digitsVal (acc : Nat) : List Char → Nat × List Char
  | [] => (acc, [])
  | c :: rest =>
    if isDigitC c then digitsVal (acc * 10 + (c.toNat - 48)) rest
    else (acc, c :: rest)

/-- Leading-zero numeral such as `01`, rejected by the JSON grammar. -/
def jLeadZero : Char → List Char → Bool
  | c, d :: _ => c = '0' && isDigitC d
  | _, [] => false

/-- Numeral followed by `.`/`e`/`E`: a float literal, outside this
integer-only model. -/
def jFloatTail : List Char → Bool
  | c :: _ => c = '.' || c = 'e' || c = 'E'
  | [] => false

/-- Recursive-descent JSON reader (fuel-bounded; every recursive step
consumes fuel, and the fuel passed by `jparse` exceeds what any input can
consume). -/
def jP : Nat → JMode → List Char → Option (JVal × List Char)
  | 0, _, _ => none
  | fuel + 1, mode, l =>
    match mode with
    | JMode.val =>
      match l.dropWhile jIsWS with
      | [] => none
      | '{' :: r =>
        match r.dropWhile jIsWS with
        | '}' :: r2 => some (JVal.obj [], r2)
        | r2 => jP fuel (JMode.members []) r2
      | '[' :: r =>
        match r.dropWhile jIsWS with
        | ']' :: r2 => some (JVal.arr [], r2)
        | r2 => jP fuel (JMode.elems []) r2
      | '"' :: r =>
        match jStrRest (r.length + 1) [] r with
        | some (s, rest) => some (JVal.str s, rest)
        | none => none
      | '-' :: r =>
        match r with
        | c :: _ =>
          if isDigitC c then
            if jLeadZero c (r.drop 1) then none
            else
              match digitsVal 0 r with
              | (n, rest) =>
                if jFloatTail rest then none
                else some (JVal.int (-(n : Int)), rest)
          else none
        | [] => none
      | c :: r =>
        if c = 't' ∧ startsWithL ['r', 'u', 'e'] r then
          some (JVal.bool true, r.drop 3)
        else if c = 'f' ∧ startsWithL ['a', 'l', 's', 'e'] r then
          some (JVal.bool false, r.drop 4)
        else if c = 'n' ∧ startsWithL ['u', 'l', 'l'] r then
          some (JVal.null, r.drop 3)
        else if isDigitC c then
          if jLeadZero c r then none
          else
            match digitsVal 0 (c :: r) with
            | (n, rest) =>
              if jFloatTail rest then none
              else some (JVal.int (n : Int), rest)
        else none
    | JMode.members acc =>
      match l with
      | '"' :: r =>
        match jStrRest (r.length + 1) [] r with
        | none => none
        | some (k, r2) =>
          match r2.dropWhile jIsWS with
          | ':' :: r3 =>
            match jP fuel JMode.val r3 with
            | none => none
            | some (v, r4) =>
              match r4.dropWhile jIsWS with
              | ',' :: r5 =>
                jP fuel (JMode.members (jUpsert k v acc)) (r5.dropWhile jIsWS)
              | '}' :: r5 => some (JVal.obj (jUpsert k v acc), r5)
              | _ => none
          | _ => none
      | _ => none
    | JMode.elems acc =>
      match jP fuel JMode.val l with
      | none => none
      | some (v, r) =>
        match r.dropWhile jIsWS with
        | ',' :: r2 => jP fuel (JMode.elems (acc ++ [v])) r2
        | ']' :: r2 => some (JVal.arr (acc ++ [v]), r2)
        | _ => none

/-- Model of `json.loads`: one value, then only whitespace may remain. -/
def jparse (s : List Char) : Option JVal :=
  match jP (2 * s.length + 4) JMode.val s with
  | some (v, rest) => if rest.dropWhile jIsWS = [] then some v else none
  | none => none

/-- Escaping of one character by `json.dumps` (default `ensure_ascii=True`):
quote and backslash escaped, the five short escapes, every other character
outside `0x20`–`0x7e` as `\uXXXX` (surrogate pairs above the BMP). -/
def jEscChar (c : Char) : List Char :=
  if c = '"' then ['\\', '"']
  else if c = '\\' then ['\\', '\\']
  else if c = '\n' then ['\\', 'n']
  else if c = '\t' then ['\\', 't']
  else if c = '\r' then ['\\', 'r']
  else if c.toNat = 8 then ['\\', 'b']
  else if c.toNat = 12 then ['\\', 'f']
  else if 32 ≤ c.toNat ∧ c.toNat ≤ 126 then [c]
  else if c.toNat < 65536 then '\\' :: 'u' :: hex4 c.toNat
  else
    '\\' :: 'u' :: hex4 (55296 + (c.toNat - 65536) / 1024) ++
      ('\\' :: 'u' :: hex4 (56320 + (c.toNat - 65536) % 1024))

def jEscStr (s : List Char) : List Char :=
  '"' :: (s.map jEscChar).flatten ++ ['"']

def joinSep (sep : List Char) : List (List Char) → List Char
  | [] => []
  | [x] => x
  | x :: y :: rest => x ++ sep ++ joinSep sep (y :: rest)

/-- Model of `json.dumps` with the default separators `", "` / `": "`,
fuel-bounded (the fuel at every use site exceeds the value's nesting
depth, which is bounded by the length of the text it was parsed from). -/
def jdumps : Nat → JVal → List Char
  | 0, _ => []
  | fuel + 1, v =>
    match v with
    | JVal.null => "null".data
    | JVal.bool true => "true".data
    | JVal.bool false => "false".data
    | JVal.int i => intDec i
    | JVal.str s => jEscStr s
    | JVal.arr xs => '[' :: joinSep ", ".data (xs.map (jdumps fuel)) ++ [']']
    | JVal.obj kvs =>
      '{' :: joinSep ", ".data
          (kvs.map (fun kv => jEscStr kv.1 ++ ": ".data ++ jdumps fuel kv.2)) ++
        ['}']

/-- Python `dict.get` on a parsed JSON object (keys are unique after
`jUpsert`). -/
def jAssocGet : List (List Char × JVal) → List Char → Option JVal
  | [], _ => none
  | (k0, v) :: rest, k => if k0 = k then some v else jAssocGet rest k

def jGetD (kvs : List (List Char × JVal)) (k : List Char) (d : JVal) : JVal :=
  (jAssocGet kvs k).getD d

/-! ### Gemini text-tagged tool calls (`tool_calls/google_helpers.py`)

The converter's `tool_call_pattern` is
`<tool_call>\s*(\{.*?\})\s*</tool_call>` with `DOTALL | MULTILINE`.  Its
backtracking is deterministic: after the literal `<tool_call>`, `\s*` must
stop exactly at the first non-whitespace character (no whitespace character
can begin `\{`); the lazy `\{.*?\}` group ends at the first `}` that is
followed by whitespace and then the literal `</tool_call>`; and for that
`}` the whitespace run consumed by the second `\s*` is forced because
`</tool_call>` starts with a non-whitespace character.  `scanTC` below
realises exactly that: it returns the group-1 string of every
non-overlapping match in order (as `findall`) together with the text with
every full match deleted (as `sub("")`). -/

def tagOpen : List Char := "<tool_call>".data

def tagClose : List Char := "</tool_call>".data

/-- After a candidate closing `}` of the lazy group: `\s*` then the literal
`</tool_call>`; returns the remainder after the closing tag. -/
def tcAfterClose (l : List Char) : Option (List Char) :=
  if startsWithL tagClose (l.dropWhile pyIsSpace) then
    some ((l.dropWhile pyIsSpace).drop 12)
  else none

/-- Lazy `\{.*?\}` body search after the opening brace: extend until the
first `}` whose tail closes with `\s*</tool_call>`; returns the characters
between the braces and the remainder after the closing tag. -/
def tcFindBody : Nat → List Char → List Char → Option (List Char × List Char)
  | 0, _, _ => none
  | _ + 1, _, [] => none
  | fuel + 1, acc, c :: rest =>
    if c = '}' then
      match tcAfterClose rest with
      | some rem => some (acc.reverse, rem)
      | none => tcFindBody fuel ('}' :: acc) rest
    else tcFindBody fuel (c :: acc) rest

/-- One left-to-right scan for the `tool_call_pattern` (fuel-bounded: every
step consumes fuel and either one character or one whole match). -/
def scanTC : Nat → List Char → List (List Char) × List Char
  | 0, l => ([], l)
  | _ + 1, [] => ([], [])
  | fuel + 1, c :: rest =>
    if startsWithL tagOpen (c :: rest) then
      match ((c :: rest).drop 11).dropWhile pyIsSpace with
      | '{' :: r2 =>
        match tcFindBody (r2.length + 1) [] r2 with
        | some (mid, rem) =>
          match scanTC fuel rem with
          | (ms, txt) => (('{' :: mid ++ ['}']) :: ms, txt)
        | none =>
          match scanTC fuel rest with
          | (ms, txt) => (ms, c :: txt)
      | _ =>
        match scanTC fuel rest with
        | (ms, txt) => (ms, c :: txt)
    else
      match scanTC fuel rest with
      | (ms, txt) => (ms, c :: txt)

def toolCallScan (l : List Char) : List (List Char) × List Char :=
  scanTC (l.length + 1) l

/-- `GeminiToolCallConverter.is_gemini_model`: empty name is not Gemini;
otherwise any of the keywords `gemini`/`bison`/`palm` in the lower-cased
name. -/
def is_gemini_model (model : List Char) : Bool :=
  if model.isEmpty then false
  else
    containsL "gemini".data (model.map lowerChar) ||
    containsL "bison".data (model.map lowerChar) ||
    containsL "palm".data (model.map lowerChar)

/-- `GeminiToolCallConverter.has_tool_calls_in_content`: falsy content has
none; otherwise `tool_call_pattern.search` succeeds iff the scan finds a
match. -/
def has_tool_calls_in_content (content : List Char) : Bool :=
  if content.isEmpty then false else !(toolCallScan content).1.isEmpty

/-- One synthesised OpenAI-format tool call.  `fname` is
`tool_data.get("name", "")` — an arbitrary JSON value, since the code never
checks its type; `fargs` is `json.dumps(tool_data.get("arguments", {}))`;
`ty` is always `"function"`. -/
structure GToolCall where
  id : List Char
  ty : List Char
  fname : JVal
  fargs : List Char

/-- Synthesised id `f"call_gemini_{i}_{abs(hash(match)) % 100000}"`; the
(process-seeded) `abs(hash(...))` is the parameter `h`. -/
def geminiId (i : Nat) (h : Nat) : List Char :=
  "call_gemini_".data ++ natDec i ++ '_' :: natDec (h % 100000)

/-- Loop body of `extract_tool_calls_from_content` for the `i`-th matched
group `m`: `json.loads(m.strip())`, which — as `m` starts with `{` — yields
an object on success; a parse failure is skipped (`except` → `continue`). -/
def gToolOfBody (hashFn : List Char → Nat) (i : Nat) (m : List Char) :
    Option GToolCall :=
  match jparse (pyStrip m) with
  | some (JVal.obj kvs) =>
    some { id := geminiId i (hashFn m), ty := "function".data,
           fname := jGetD kvs "name".data (JVal.str []),
           fargs := jdumps (m.length + 2)
             (jGetD kvs "arguments".data (JVal.obj [])) }
  | _ => none

/-- The `for i, match in enumerate(matches)` loop. -/
def extractGeminiLoop (hashFn : List Char → Nat) :
    Nat → List (List Char) → List GToolCall
  | _, [] => []
  | i, m :: ms =>
    match gToolOfBody hashFn i m with
    | some t => t :: extractGeminiLoop hashFn (i + 1) ms
    | none => extractGeminiLoop hashFn (i + 1) ms

/-- `GeminiToolCallConverter.extract_tool_calls_from_content`. -/
def extract_tool_calls_from_content (hashFn : List Char → Nat)
    (content : List Char) : List GToolCall :=
  if content.isEmpty then []
  else extractGeminiLoop hashFn 0 (toolCallScan content).1

/-- `GeminiToolCallConverter.remove_tool_call_tags`:
`tool_call_pattern.sub("", content).strip()`. -/
def remove_tool_call_tags (content : List Char) : List Char :=
  if content.isEmpty then [] else pyStrip (toolCallScan content).2

/-- The fields of a response-choice message that
`convert_response_data` reads and writes (`content` may be absent or
`null`, both falsy like the empty string). -/
structure GMessage where
  content : Option (List Char)
  tool_calls : List GToolCall

/-- Per-choice body of `convert_response_data`: skip when structured
`tool_calls` are already present (truthy); otherwise extract from the
text, and only when at least one call was produced install them, strip the
tags and null out an emptied content. -/
def gemini_convert_message (hashFn : List Char → Nat) (msg : GMessage) :
    GMessage :=
  match msg.tool_calls with
  | _ :: _ => msg
  | [] =>
    if has_tool_calls_in_content (msg.content.getD []) then
      match extract_tool_calls_from_content hashFn (msg.content.getD []) with
      | [] => msg
      | t :: ts =>
        { content :=
            match remove_tool_call_tags (msg.content.getD []) with
            | [] => none
            | c :: cs => some (c :: cs),
          tool_calls := t :: ts }
    else msg

/-- `GeminiToolCallConverter.convert_response_data` over the choices of a
response: unchanged unless the model is Gemini-like and choices are
present. -/
def gemini_convert_response (hashFn : List Char → Nat) (model : List Char)
    (choices : List GMessage) : List GMessage :=
  if is_gemini_model model then
    match choices with
    | [] => []
    | c :: cs => (c :: cs).map (gemini_convert_message hashFn)
  else choices

/-- The extraction loop indexes the matches like `enumerate`: the `i`-th
match (parseable or not) owns index `i`, and unparseable matches are
dropped. -/
theorem extractGeminiLoop_eq (hashFn : List Char → Nat)
    (ms : List (List Char)) :
    ∀ i, extractGeminiLoop hashFn i ms =
      (ms.enumFrom i).filterMap (fun p => gToolOfBody hashFn p.1 p.2) := by
  induction ms with
  | nil => intro i; rfl
  | cons m ms ih =>
    intro i
    show (match gToolOfBody hashFn i m with
          | some t => t :: extractGeminiLoop hashFn (i + 1) ms
          | none => extractGeminiLoop hashFn (i + 1) ms) = _
    rw [show (m :: ms).enumFrom i = (i, m) :: ms.enumFrom (i + 1) from rfl,
        List.filterMap_cons]
    cases h : gToolOfBody hashFn i m with
    | none => simp only [h]; exact ih (i + 1)
    | some t => simp only [h]; rw [ih (i + 1)]

/-- **C8** (amended): for a Gemini-family model — (1) a choice message
already carrying structured (truthy) `tool_calls` is left untouched;
(2) the extractor turns exactly the matched `<tool_call>…</tool_call>`
blocks whose body parses as JSON into synthesised calls, one per parseable
block, the `i`-th match getting id `call_gemini_<i>_<abs(hash) % 100000>`,
with `name` defaulting to `""` (the code does **not** require it, contrary
to the claim) and `arguments` re-serialised with a `{}` default, while
unparseable blocks are skipped (their index still counts); (3) when at
least one call is produced, the calls are installed, the matched tag
substrings are stripped from the text, and the content becomes `None` when
nothing remains; (4) when no call is produced — in particular when every
matched block is unparseable — the message is unchanged, tags included. -/
theorem gemini_text_tool_calls (hashFn : List Char → Nat)
    (model content : List Char) (msg : GMessage)
    (hg : is_gemini_model model = true) :
    (msg.tool_calls ≠ [] →
        gemini_convert_response hashFn model [msg] = [msg]) ∧
    (extract_tool_calls_from_content hashFn content =
        ((toolCallScan content).1.enumFrom 0).filterMap
          (fun p => gToolOfBody hashFn p.1 p.2)) ∧
    (msg.tool_calls = [] → msg.content = some content →
        extract_tool_calls_from_content hashFn content ≠ [] →
        gemini_convert_response hashFn model [msg] =
          [{ content :=
               if pyStrip (toolCallScan content).2 = [] then none
               else some (pyStrip (toolCallScan content).2),
             tool_calls := extract_tool_calls_from_content hashFn content }]) ∧
    (msg.tool_calls = [] → msg.content = some content →
        extract_tool_calls_from_content hashFn content = [] →
        gemini_convert_response hashFn model [msg] = [msg]) := by
  have hr : gemini_convert_response hashFn model [msg] =
      [gemini_convert_message hashFn msg] := by
    simp [gemini_convert_response, hg]
  refine ⟨?_, ?_, ?_, ?_⟩
  · intro h
    rw [hr]
    cases htc : msg.tool_calls with
    | nil => exact absurd htc h
    | cons t ts =>
      have : gemini_convert_message hashFn msg = msg := by
        unfold gemini_convert_message
        rw [htc]
      rw [this]
  · cases content with
    | nil => rfl
    | cons c cs =>
      unfold extract_tool_calls_from_content
      rw [if_neg (by simp)]
      exact extractGeminiLoop_eq hashFn _ 0
  · intro h1 h2 h3
    rw [hr]
    have hmc : msg.content.getD [] = content := by rw [h2]; rfl
    have hcne : ¬(content.isEmpty = true) := by
      intro hc
      apply h3
      unfold extract_tool_calls_from_content
      rw [if_pos hc]
    have h4 : has_tool_calls_in_content content = true := by
      unfold has_tool_calls_in_content
      rw [if_neg hcne]
      cases hms : (toolCallScan content).1 with
      | nil =>
        exfalso
        apply h3
        unfold extract_tool_calls_from_content
        rw [if_neg hcne, hms]
        rfl
      | cons a as => rfl
    have h6 : remove_tool_call_tags content =
        pyStrip (toolCallScan content).2 := by
      unfold remove_tool_call_tags
      rw [if_neg hcne]
    have h5 : gemini_convert_message hashFn msg =
        { content :=
            if pyStrip (toolCallScan content).2 = [] then none
            else some (pyStrip (toolCallScan content).2),
          tool_calls := extract_tool_calls_from_content hashFn content } := by
      unfold gemini_convert_message
      rw [h1, hmc, if_pos h4]
      cases hext : extract_tool_calls_from_content hashFn content with
      | nil => exact absurd hext h3
      | cons t ts =>
        rw [h6]
        cases hps : pyStrip (toolCallScan content).2 with
        | nil => rw [if_pos rfl]
        | cons p ps => rw [if_neg (by exact fun hh => List.noConfusion hh)]
    rw [h5]
  · intro h1 h2 h4
    rw [hr]
    have hmc : msg.content.getD [] = content := by rw [h2]; rfl
    have h5 : gemini_convert_message hashFn msg = msg := by
      unfold gemini_convert_message
      rw [h1, hmc]
      by_cases hh : has_tool_calls_in_content content = true
      · rw [if_pos hh, h4]
      · rw [if_neg hh]
    rw [h5]

/-- Witness for **C8** at a concrete Gemini response: one tagged block,
hash modelled as the constant 7; the block is converted, the tags are
stripped and the emptied content becomes `None`. -/
theorem gemini_text_tool_calls_witness :
    gemini_convert_response (fun _ => 7) "argo:gemini-2.5-pro".data
        [{ content := some
             "<tool_call> \x7b\"name\": \"get_weather\", \"arguments\": \x7b\"city\": \"SF\"\x7d\x7d </tool_call>".data,
           tool_calls := [] }] =
      [{ content := none,
         tool_calls := [{ id := "call_gemini_0_7".data,
                          ty := "function".data,
                          fname := JVal.str "get_weather".data,
                          fargs := "\x7b\"city\": \"SF\"\x7d".data }] }] := by
  rw [(gemini_text_tool_calls (fun _ => 7) "argo:gemini-2.5-pro".data
      "<tool_call> \x7b\"name\": \"get_weather\", \"arguments\": \x7b\"city\": \"SF\"\x7d\x7d </tool_call>".data
      { content := some
          "<tool_call> \x7b\"name\": \"get_weather\", \"arguments\": \x7b\"city\": \"SF\"\x7d\x7d </tool_call>".data,
        tool_calls := [] }
      (by rfl)).2.2.1 rfl rfl
      (by intro h; exact absurd (congrArg List.length h) (by decide))]
  rfl

/-- **C8** (counterexample): the code does not require the matched JSON to
contain `name` — an empty object is converted into a call whose name is
`""` — and an unparseable block yields no call at all, in which case the
message (tags included) is left untouched rather than stripped. -/
theorem gemini_name_not_required :
    extract_tool_calls_from_content (fun _ => 0)
        "<tool_call>\x7b\x7d</tool_call>".data =
      [{ id := "call_gemini_0_0".data, ty := "function".data,
          fname := JVal.str [], fargs := "\x7b\x7d".data }] ∧
    gemini_convert_response (fun _ => 0) "gemini-pro".data
        [{ content := some "x <tool_call>\x7boops\x7d</tool_call>".data,
           tool_calls := [] }] =
      [{ content := some "x <tool_call>\x7boops\x7d</tool_call>".data,
         tool_calls := [] }] :=
  ⟨rfl, rfl⟩

/-! ### Python literal values (`ast.literal_eval`)

Modelled from the Python standard library `ast.literal_eval` (not part of
this repository), restricted to the literal fragment the leaked-tool
candidates are drawn from: strings (single- or double-quoted, with the
short backslash escapes, unknown escapes kept verbatim, raw newlines
rejected, backslash-newline as line continuation), decimal integers with
unary sign, `True`/`False`/`None`, lists and dicts with optional trailing
commas.  Strictly narrowing restrictions of the model: floats, complex,
hex/octal/binary/underscored numerals, tuples, sets, string-prefix or
triple-quoted or adjacently-concatenated strings, and `\x`/`\u`/`\U`/`\N`/
octal string escapes are rejected rather than parsed.  Python's cross-type
key equality (`1 == True`) and unhashable-key `TypeError`s (which the code
would not catch) are outside the model. -/

inductive PyVal where
  | noneV : PyVal
  | bool (b : Bool) : PyVal
  | int (i : Int) : PyVal
  | str (s : List Char) : PyVal
  | list (xs : List PyVal) : PyVal
  | dict (kvs : List (PyVal × PyVal)) : PyVal

/-- Parser mode: plain value, dict members, or list elements. -/
inductive PMode where
  | val : PMode
  | dmembers (acc : List (PyVal × PyVal)) : PMode
  | lelems (acc : List PyVal) : PMode

def isIdentC (c : Char) : Bool :=
  isDigitC c || ('a' ≤ c && c ≤ 'z') || ('A' ≤ c && c ≤ 'Z') || c = '_'

def identAfter : List Char → Bool
  | c :: _ => isIdentC c
  | [] => false

/-- Scalar key equality, as Python `==` on literal keys. -/
def pyKeyEq : PyVal → PyVal → Bool
  | PyVal.noneV, PyVal.noneV => true
  | PyVal.bool x, PyVal.bool y => x = y
  | PyVal.int x, PyVal.int y => x = y
  | PyVal.str x, PyVal.str y => x = y
  | _, _ => false

/-- Dict insertion with Python semantics: a duplicate key keeps its first
position and takes the last value. -/
def pyUpsert (k : PyVal) (v : PyVal) :
    List (PyVal × PyVal) → List (PyVal × PyVal)
  | [] => [(k, v)]
  | (k0, v0) :: rest =>
    if pyKeyEq k0 k then (k0, v) :: rest else (k0, v0) :: pyUpsert k v rest

/-- Python `dict.get` as a lookup returning `Option`. -/
def pyDictGet : List (PyVal × PyVal) → PyVal → Option PyVal
  | [], _ => none
  | (k, v) :: rest, q => if pyKeyEq k q then some v else pyDictGet rest q

/-- Python `key in dict` for a string key. -/
def pyHasStrKey (kvs : List (PyVal × PyVal)) (s : List Char) : Bool :=
  kvs.any (fun kv => pyKeyEq kv.1 (PyVal.str s))

/-- String-literal body after the opening quote `q`. -/
def pyStrRest : Nat → Char → List Char → List Char →
    Option (List Char × List Char)
  | 0, _, _, _ => none
  | fuel + 1, q, acc, l =>
    match l with
    | [] => none
    | c :: rest =>
      if c = q then some (acc.reverse, rest)
      else if c = '\\' then
        match rest with
        | [] => none
        | e :: rest2 =>
          if e = '\\' then pyStrRest fuel q ('\\' :: acc) rest2
          else if e = '\'' then pyStrRest fuel q ('\'' :: acc) rest2
          else if e = '"' then pyStrRest fuel q ('"' :: acc) rest2
          else if e = 'n' then pyStrRest fuel q ('\n' :: acc) rest2
          else if e = 't' then pyStrRest fuel q ('\t' :: acc) rest2
          else if e = 'r' then pyStrRest fuel q ('\r' :: acc) rest2
          else if e = 'b' then pyStrRest fuel q (Char.ofNat 8 :: acc) rest2
          else if e = 'f' then pyStrRest fuel q (Char.ofNat 12 :: acc) rest2
          else if e = 'v' then pyStrRest fuel q (Char.ofNat 11 :: acc) rest2
          else if e = 'a' then pyStrRest fuel q (Char.ofNat 7 :: acc) rest2
          else if e = '\n' then pyStrRest fuel q acc rest2
          else if e = 'x' ∨ e = 'u' ∨ e = 'U' ∨ e = 'N' ∨
              ('0' ≤ e ∧ e ≤ '7') then none
          else pyStrRest fuel q (e :: '\\' :: acc) rest2
      else if c = '\n' ∨ c = '\r' then none
      else pyStrRest fuel q (c :: acc) rest

/-- Value and remainder of a run of decimal digits. -/
def pyDigits (l : List Char) : Nat × List Char :=
  ((l.takeWhile isDigitC).foldl (fun a c => a * 10 + (c.toNat - 48)) 0,
   l.dropWhile isDigitC)

/-- Numerals outside the model's integer fragment: a non-zero decimal with
a leading zero (a `SyntaxError` in Python 3), or a numeral continuing with
float/complex/base/underscore syntax. -/
def pyNumBad : Char → List Char → Bool
  | c, rest =>
    (c = '0' && (rest.takeWhile isDigitC).any (fun d => d ≠ '0')) ||
    (match rest.dropWhile isDigitC with
     | d :: _ => d = '.' || d = 'e' || d = 'E' || d = 'j' || d = 'J' ||
         d = 'x' || d = 'X' || d = 'o' || d = 'O' || d = 'b' || d = 'B' ||
         d = '_'
     | [] => false)

/-- Recursive-descent reader for the Python literal fragment
(fuel-bounded; the fuel passed by `pyLiteralEval` exceeds what any input
can consume).  Whitespace between tokens is allowed everywhere, matching
Python inside bracketed expressions — every candidate is a brace-delimited
dict, so the stricter top-level rules never apply. -/
def pyP : Nat → PMode → List Char → Option (PyVal × List Char)
  | 0, _, _ => none
  | fuel + 1, mode, l =>
    match mode with
    | PMode.val =>
      match l.dropWhile pyIsSpace with
      | [] => none
      | '{' :: r =>
        match r.dropWhile pyIsSpace with
        | '}' :: r2 => some (PyVal.dict [], r2)
        | r2 => pyP fuel (PMode.dmembers []) r2
      | '[' :: r =>
        match r.dropWhile pyIsSpace with
        | ']' :: r2 => some (PyVal.list [], r2)
        | r2 => pyP fuel (PMode.lelems []) r2
      | '\'' :: r =>
        match pyStrRest (r.length + 1) '\'' [] r with
        | some (s, rest) => some (PyVal.str s, rest)
        | none => none
      | '"' :: r =>
        match pyStrRest (r.length + 1) '"' [] r with
        | some (s, rest) => some (PyVal.str s, rest)
        | none => none
      | '-' :: r =>
        match r.dropWhile pyIsSpace with
        | c :: r2 =>
          if isDigitC c then
            if pyNumBad c r2 then none
            else
              match pyDigits (c :: r2) with
              | (n, rest) => some (PyVal.int (-(n : Int)), rest)
          else none
        | [] => none
      | '+' :: r =>
        match r.dropWhile pyIsSpace with
        | c :: r2 =>
          if isDigitC c then
            if pyNumBad c r2 then none
            else
              match pyDigits (c :: r2) with
              | (n, rest) => some (PyVal.int (n : Int), rest)
          else none
        | [] => none
      | c :: r =>
        if c = 'T' ∧ startsWithL "rue".data r ∧ ¬identAfter (r.drop 3) then
          some (PyVal.bool true, r.drop 3)
        else if c = 'F' ∧ startsWithL "alse".data r ∧
            ¬identAfter (r.drop 4) then
          some (PyVal.bool false, r.drop 4)
        else if c = 'N' ∧ startsWithL "one".data r ∧
            ¬identAfter (r.drop 3) then
          some (PyVal.noneV, r.drop 3)
        else if isDigitC c then
          if pyNumBad c r then none
          else
            match pyDigits (c :: r) with
            | (n, rest) => some (PyVal.int (n : Int), rest)
        else none
    | PMode.dmembers acc =>
      match pyP fuel PMode.val l with
      | none => none
      | some (k, r1) =>
        match r1.dropWhile pyIsSpace with
        | ':' :: r2 =>
          match pyP fuel PMode.val r2 with
          | none => none
          | some (v, r3) =>
            match r3.dropWhile pyIsSpace with
            | ',' :: r4 =>
              match r4.dropWhile pyIsSpace with
              | '}' :: r5 => some (PyVal.dict (pyUpsert k v acc), r5)
              | r5 => pyP fuel (PMode.dmembers (pyUpsert k v acc)) r5
            | '}' :: r4 => some (PyVal.dict (pyUpsert k v acc), r4)
            | _ => none
        | _ => none
    | PMode.lelems acc =>
      match pyP fuel PMode.val l with
      | none => none
      | some (v, r1) =>
        match r1.dropWhile pyIsSpace with
        | ',' :: r2 =>
          match r2.dropWhile pyIsSpace with
          | ']' :: r3 => some (PyVal.list (acc ++ [v]), r3)
          | r3 => pyP fuel (PMode.lelems (acc ++ [v])) r3
        | ']' :: r2 => some (PyVal.list (acc ++ [v]), r2)
        | _ => none

/-- Model of `ast.literal_eval` on a string: CPython first strips leading
spaces/tabs, then parses in `eval` mode (trailing whitespace allowed). -/
def pyLiteralEval (s : List Char) : Option PyVal :=
  match pyP (2 * s.length + 4)
      PMode.val (s.dropWhile (fun c => c = ' ' || c = '\t')) with
  | some (v, rest) => if rest.dropWhile pyIsSpace = [] then some v else none
  | none => none

/-! ### Leaked tool calls (`tool_calls/leaked_tool_parser.py`)

`LEAKED_TOOL_PATTERN` is `\{'id':\s*'toolu_`; its backtracking is
deterministic because `\s*` must stop exactly at the first non-whitespace
character (no whitespace character can begin `'toolu_`).  The repair
regexes are likewise deterministic: `(?<!\\)\\n` is a two-character
literal with a lookbehind on the original text, and in
`\}\},[ \n\r]*?('name'|"name"|'type'|"type")` the lazy class run must stop
exactly at the first character outside `[ \n\r]` (the alternatives all
start with a quote, which the class does not contain). -/

/-- Repair (i), `re.sub(r"(?<!\\)\\n", r"\\\\n", s)`: each two-character
`\n` sequence not preceded by a backslash becomes `\\n`; the flag carries
whether the previous original character was a backslash. -/
def fixStrayNewlines : Bool → List Char → List Char
  | _, [] => []
  | true, '\\' :: 'n' :: rest2 => '\\' :: 'n' :: fixStrayNewlines false rest2
  | false, '\\' :: 'n' :: rest2 =>
    '\\' :: '\\' :: 'n' :: fixStrayNewlines false rest2
  | _, '\\' :: rest => '\\' :: fixStrayNewlines true rest
  | _, c :: rest => c :: fixStrayNewlines false rest

/-- Repair (ii), `s.replace(r"\\'", r"\'")`: left-to-right non-overlapping
replacement of `\\'` by `\'`. -/
def unDoubleEscape : List Char → List Char
  | '\\' :: '\\' :: '\'' :: rest => '\\' :: '\'' :: unDoubleEscape rest
  | c :: rest => c :: unDoubleEscape rest
  | [] => []

/-- Character class `[ \n\r]` of the brace-collapse pattern. -/
def cbClass (c : Char) : Bool := c = ' ' || c = '\n' || c = '\r'

/-- Alternation `('name'|"name"|'type'|"type")`: a quote, the word, the
same quote; returns the matched key (with quotes) and the remainder. -/
def braceKeyAt : List Char → Option (List Char × List Char)
  | q :: rest =>
    if q = '\'' ∨ q = '"' then
      if startsWithL ("name".data ++ [q]) rest then
        some (q :: "name".data ++ [q], rest.drop 5)
      else if startsWithL ("type".data ++ [q]) rest then
        some (q :: "type".data ++ [q], rest.drop 5)
      else none
    else none
  | [] => none

/-- Tail of a brace-collapse match after its first `}`: a second `}`, a
comma, the lazy `[ \n\r]*` run, then the quoted key. -/
def braceMatchTail : List Char → Option (List Char × List Char)
  | '}' :: ',' :: rest => braceKeyAt (rest.dropWhile cbClass)
  | _ => none

/-- Repair (iv), `re.sub(r"\}\},[ \n\r]*?('name'|...)", r"}, \1", s)`:
each match is replaced by `}, ` followed by the key, and scanning resumes
after the match (fuel-bounded: every step consumes at least one input
character). -/
def collapseBracesF : Nat → List Char → List Char
  | 0, l => l
  | fuel + 1, l =>
    match l with
    | [] => []
    | c :: rest =>
      if c = '}' then
        match braceMatchTail rest with
        | some (key, rem) =>
          '}' :: ',' :: ' ' :: (key ++ collapseBracesF fuel rem)
        | none => c :: collapseBracesF fuel rest
      else c :: collapseBracesF fuel rest

def collapseBraces (l : List Char) : List Char :=
  collapseBracesF (l.length + 1) l

/-- One parse attempt of `_try_parse_candidate`: `ast.literal_eval`, then
the `isinstance(dict)` / `"id" in` / `"name" in` checks (a parse that
succeeds with the wrong shape behaves exactly like a failure: the code
falls through to the next strategy). -/
def tryParseDict (s : List Char) : Option (List (PyVal × PyVal)) :=
  match pyLiteralEval s with
  | some (PyVal.dict kvs) =>
    if pyHasStrKey kvs "id".data && pyHasStrKey kvs "name".data then
      some kvs
    else none
  | _ => none

/-- `LeakedToolParser._try_parse_candidate`: the direct attempt, then the
repair strategies `s1`–`s5` in order. -/
def try_parse_candidate (s : List Char) : Option (List (PyVal × PyVal)) :=
  match tryParseDict s with
  | some d => some d
  | none =>
    match tryParseDict (fixStrayNewlines false s) with
    | some d => some d
    | none =>
      match tryParseDict (unDoubleEscape s) with
      | some d => some d
      | none =>
        match tryParseDict (unDoubleEscape (fixStrayNewlines false s)) with
        | some d => some d
        | none =>
          match tryParseDict (collapseBraces s) with
          | some d => some d
          | none =>
            match tryParseDict
                (collapseBraces (fixStrayNewlines false s)) with
            | some d => some d
            | none => none

/-- Test of `LEAKED_TOOL_PATTERN` at the head of `l`: the literal
`{'id':`, maximal whitespace, the literal `'toolu_`; returns the length of
the match (`match.end() - match.start()`). -/
def leakedAnchorAt (l : List Char) : Option Nat :=
  if startsWithL "\x7b'id':".data l then
    if startsWithL "'toolu_".data ((l.drop 6).dropWhile pyIsSpace) then
      some (6 + ((l.drop 6).takeWhile pyIsSpace).length + 7)
    else none
  else none

/-- `LEAKED_TOOL_PATTERN.search`: the leftmost match, as absolute
`(start, end)`. -/
def leakedSearch : List Char → Option (Nat × Nat)
  | [] => none
  | c :: rest =>
    match leakedAnchorAt (c :: rest) with
    | some e => some (0, e)
    | none =>
      match leakedSearch rest with
      | some (s, e) => some (s + 1, e + 1)
      | none => none

/-- Candidate end positions `[m.start() + 1 for m in re.finditer(r"}",
tail)]`: one past each `}`, in text order (`i` is the index of the head of
`l` within the tail). -/
def bracePositions : List Char → Nat → List Nat
  | [], _ => []
  | c :: rest, i =>
    if c = '}' then (i + 1) :: bracePositions rest (i + 1)
    else bracePositions rest (i + 1)

/-- The `LeakedToolCall` dataclass (`type` as `ty`, `raw_string` as `raw`;
`name`/`input`/`type` are raw `.get` results with their defaults, since
the code never checks their types). -/
structure LeakedTool where
  id : List Char
  name : PyVal
  input : PyVal
  ty : PyVal
  raw : List Char
  startIdx : Nat
  endIdx : Nat

/-- Loop body of `extract_single_leaked_tool` for one candidate end `e`:
parse (with repairs) the candidate `text[startIdx:][:e]`; on success the
tool id must be a string starting with `toolu_`, otherwise this candidate
is rejected and the scan continues with the next end. -/
def acceptCandidate (text : List Char) (startIdx : Nat) (e : Nat) :
    Option LeakedTool :=
  match try_parse_candidate ((text.drop startIdx).take e) with
  | none => none
  | some kvs =>
    match pyDictGet kvs (PyVal.str "id".data) with
    | some (PyVal.str tid) =>
      if startsWithL "toolu_".data tid then
        some { id := tid,
               name := (pyDictGet kvs (PyVal.str "name".data)).getD
                 (PyVal.str []),
               input := (pyDictGet kvs (PyVal.str "input".data)).getD
                 (PyVal.dict []),
               ty := (pyDictGet kvs (PyVal.str "type".data)).getD
                 (PyVal.str "tool_use".data),
               raw := (text.drop startIdx).take e,
               startIdx := startIdx, endIdx := startIdx + e }
      else none
    | _ => none

def extractSingleLoop (text : List Char) (startIdx : Nat) :
    List Nat → Option LeakedTool
  | [] => none
  | e :: es =>
    match acceptCandidate text startIdx e with
    | some t => some t
    | none => extractSingleLoop text startIdx es

/-- `LeakedToolParser.extract_single_leaked_tool` (an empty candidate list
returns `None`, exactly as the loop over it does). -/
def extract_single_leaked_tool (text : List Char) (startIdx : Nat) :
    Option LeakedTool :=
  extractSingleLoop text startIdx (bracePositions (text.drop startIdx) 0)

def sentinelUnparseable : List Char := "[UNPARSEABLE_TOOL]".data

/-- The `while True` loop of `extract_all_leaked_tools` (fuel-bounded:
every iteration destroys the anchor occurrence it worked on and the
sentinel text cannot take part in a new one, so the fuel passed below is
never exhausted on the way to the fixed point). -/
def extract_all_F : Nat → List LeakedTool → List Char →
    List LeakedTool × List Char
  | 0, tools, text => (tools, text)
  | fuel + 1, tools, text =>
    match leakedSearch text with
    | none => (tools, text)
    | some (s, e) =>
      match extract_single_leaked_tool text s with
      | some lt =>
        extract_all_F fuel (tools ++ [lt])
          (text.take lt.startIdx ++ text.drop lt.endIdx)
      | none =>
        extract_all_F fuel tools
          (text.take s ++ sentinelUnparseable ++ text.drop e)

/-- `LeakedToolParser.extract_all_leaked_tools`. -/
def extract_all_leaked_tools (text : List Char) :
    List LeakedTool × List Char :=
  extract_all_F (2 * text.length + 2) [] text

/-- A successful `findSome?` is witnessed by a member of the list. -/
theorem findSomeMem {α β : Type} (f : α → Option β) (b : β) :
    ∀ l : List α, l.findSome? f = some b → ∃ a, a ∈ l ∧ f a = some b := by
  intro l
  induction l with
  | nil => intro h; exact absurd h (by simp)
  | cons a as ih =>
    intro h
    cases hfa : f a with
    | some b0 =>
      have hb : some b0 = some b := by
        rw [← h, List.findSome?_cons, hfa]
      exact ⟨a, List.mem_cons_self a as, hfa.trans hb⟩
    | none =>
      have h' : as.findSome? f = some b := by
        rw [← h, List.findSome?_cons, hfa]
      obtain ⟨x, hx, hfx⟩ := ih h'
      exact ⟨x, List.mem_cons_of_mem a hx, hfx⟩

/-- Candidate ends are exactly one past each `}` of the tail, in text
order. -/
theorem bracePositions_eq (l : List Char) :
    ∀ i, bracePositions l i =
      (l.enumFrom i).filterMap
        (fun p => if p.2 = '}' then some (p.1 + 1) else none) := by
  induction l with
  | nil => intro i; rfl
  | cons c rest ih =>
    intro i
    rw [show (c :: rest).enumFrom i = (i, c) :: rest.enumFrom (i + 1)
          from rfl,
        List.filterMap_cons]
    by_cases hc : c = '}'
    · subst hc
      show ((i + 1) :: bracePositions rest (i + 1)) =
          (i + 1) :: (rest.enumFrom (i + 1)).filterMap
            (fun p => if p.2 = '}' then some (p.1 + 1) else none)
      rw [ih (i + 1)]
    · show bracePositions (c :: rest) i = _
      rw [show bracePositions (c :: rest) i =
            (if c = '}' then (i + 1) :: bracePositions rest (i + 1)
             else bracePositions rest (i + 1)) from rfl,
          if_neg hc]
      have hred : (if (i, c).2 = '}' then some ((i, c).1 + 1) else none) =
          (none : Option Nat) := by
        show (if c = '}' then some (i + 1) else none) = none
        rw [if_neg hc]
      rw [hred]
      exact ih (i + 1)

/-- The candidate-end loop accepts the first end (in order) whose
candidate is accepted. -/
theorem extractSingleLoop_eq (text : List Char) (s : Nat) :
    ∀ es, extractSingleLoop text s es =
      es.findSome? (acceptCandidate text s) := by
  intro es
  induction es with
  | nil => rfl
  | cons e es ih =>
    show (match acceptCandidate text s e with
          | some t => some t
          | none => extractSingleLoop text s es) = _
    rw [List.findSome?_cons]
    cases h : acceptCandidate text s e with
    | some t => rfl
    | none => exact ih

/-- An accepted candidate records exactly its span: it starts at the
anchor, its raw string is the candidate substring, its end is the anchor
plus the candidate length, and its id starts with `toolu_`. -/
theorem acceptCandidate_spec (text : List Char) (s e : Nat)
    (lt : LeakedTool) (h : acceptCandidate text s e = some lt) :
    lt.startIdx = s ∧ lt.endIdx = s + e ∧
      lt.raw = (text.drop s).take e ∧
      startsWithL "toolu_".data lt.id = true := by
  unfold acceptCandidate at h
  split at h
  · exact absurd h (by simp)
  · split at h
    · split at h
      · cases h
        next hsw => exact ⟨rfl, rfl, rfl, hsw⟩
      · exact absurd h (by simp)
    · exact absurd h (by simp)

/-- `leakedSearch` finds the leftmost anchor: the pattern matches at the
reported start with the reported length, and at no earlier position. -/
theorem leakedSearch_leftmost :
    ∀ (text : List Char) (s e : Nat), leakedSearch text = some (s, e) →
      leakedAnchorAt (text.drop s) = some (e - s) ∧
        ∀ p, p < s → leakedAnchorAt (text.drop p) = none := by
  intro text
  induction text with
  | nil => intro s e h; exact absurd h (by simp [leakedSearch])
  | cons c rest ih =>
    intro s e h
    unfold leakedSearch at h
    cases ha : leakedAnchorAt (c :: rest) with
    | some e0 =>
      rw [ha] at h
      injection h with h2
      injection h2 with h3 h4
      subst h3
      subst h4
      exact ⟨ha, fun p hp => absurd hp (Nat.not_lt_zero p)⟩
    | none =>
      rw [ha] at h
      cases hr : leakedSearch rest with
      | none => rw [hr] at h; exact Option.noConfusion h
      | some se =>
        obtain ⟨s0, e0⟩ := se
        rw [hr] at h
        injection h with h2
        injection h2 with h3 h4
        subst h3
        subst h4
        obtain ⟨ih1, ih2⟩ := ih s0 e0 hr
        refine ⟨?_, ?_⟩
        · show leakedAnchorAt (rest.drop s0) = some (e0 + 1 - (s0 + 1))
          rw [Nat.succ_sub_succ]
          exact ih1
        · intro p hp
          cases p with
          | zero => exact ha
          | succ q => exact ih2 q (by omega)

/-- **C2**: leaked-tool extraction, characterised at the anchor reported
by `leakedSearch` — (1) that anchor is the leftmost occurrence of
`\{'id':\s*'toolu_`; (2) the candidate end positions are one past each
following `}`, in order; (3) each candidate is parsed directly and then
with the repair strategies (i)–(v) in exactly that order, accepting the
first that yields a dict containing `id` and `name`; (4) the anchor's tool
is the first candidate end (in order) whose parse is accepted with a
string id beginning `toolu_` (an id failing that check moves on to the
next end); (5) a recovered call is appended in encounter order and exactly
its span `[start, end)` is removed from the text; (6) when no candidate
end parses, the span up to the anchor match's end is replaced by the
sentinel `[UNPARSEABLE_TOOL]` and the loop continues; (7) the loop stops
only when no anchor remains. -/
theorem leaked_tool_extraction (text : List Char) (s e : Nat)
    (hm : leakedSearch text = some (s, e)) :
    (leakedAnchorAt (text.drop s) = some (e - s) ∧
      ∀ p, p < s → leakedAnchorAt (text.drop p) = none) ∧
    (bracePositions (text.drop s) 0 =
      ((text.drop s).enumFrom 0).filterMap
        (fun p => if p.2 = '}' then some (p.1 + 1) else none)) ∧
    (∀ c : List Char, try_parse_candidate c =
      [c, fixStrayNewlines false c, unDoubleEscape c,
        unDoubleEscape (fixStrayNewlines false c), collapseBraces c,
        collapseBraces (fixStrayNewlines false c)].findSome? tryParseDict) ∧
    (extract_single_leaked_tool text s =
      (bracePositions (text.drop s) 0).findSome? (acceptCandidate text s)) ∧
    (∀ fuel tools lt, extract_single_leaked_tool text s = some lt →
      lt.startIdx = s ∧ lt.raw = (text.drop s).take (lt.endIdx - s) ∧
        startsWithL "toolu_".data lt.id = true ∧
        extract_all_F (fuel + 1) tools text =
          extract_all_F fuel (tools ++ [lt])
            (text.take s ++ text.drop lt.endIdx)) ∧
    (∀ fuel tools, extract_single_leaked_tool text s = none →
      extract_all_F (fuel + 1) tools text =
        extract_all_F fuel tools
          (text.take s ++ sentinelUnparseable ++ text.drop e)) ∧
    (∀ fuel tools t, leakedSearch t = none →
      extract_all_F (fuel + 1) tools t = (tools, t)) := by
  have hstep : ∀ fuel tools, extract_all_F (fuel + 1) tools text =
      (match extract_single_leaked_tool text s with
       | some lt =>
         extract_all_F fuel (tools ++ [lt])
           (text.take lt.startIdx ++ text.drop lt.endIdx)
       | none =>
         extract_all_F fuel tools
           (text.take s ++ sentinelUnparseable ++ text.drop e)) := by
    intro fuel tools
    show (match leakedSearch text with
          | none => (tools, text)
          | some (s', e') =>
            match extract_single_leaked_tool text s' with
            | some lt =>
              extract_all_F fuel (tools ++ [lt])
                (text.take lt.startIdx ++ text.drop lt.endIdx)
            | none =>
              extract_all_F fuel tools
                (text.take s' ++ sentinelUnparseable ++ text.drop e')) = _
    rw [hm]
  refine ⟨leakedSearch_leftmost text s e hm, bracePositions_eq _ 0,
    ?_, extractSingleLoop_eq text s _, ?_, ?_, ?_⟩
  · intro c
    show try_parse_candidate c = _
    rw [try_parse_candidate]
    rw [List.findSome?_cons]
    cases tryParseDict c with
    | some d => rfl
    | none =>
      rw [List.findSome?_cons]
      cases tryParseDict (fixStrayNewlines false c) with
      | some d => rfl
      | none =>
        rw [List.findSome?_cons]
        cases tryParseDict (unDoubleEscape c) with
        | some d => rfl
        | none =>
          rw [List.findSome?_cons]
          cases tryParseDict (unDoubleEscape (fixStrayNewlines false c)) with
          | some d => rfl
          | none =>
            rw [List.findSome?_cons]
            cases tryParseDict (collapseBraces c) with
            | some d => rfl
            | none =>
              rw [List.findSome?_cons]
              cases tryParseDict
                  (collapseBraces (fixStrayNewlines false c)) with
              | some d => rfl
              | none => rfl
  · intro fuel tools lt hs
    have hloop : (bracePositions (text.drop s) 0).findSome?
        (acceptCandidate text s) = some lt := by
      rw [← extractSingleLoop_eq]
      exact hs
    obtain ⟨ec, _, hacc⟩ := findSomeMem (acceptCandidate text s) lt _ hloop
    obtain ⟨h1, h2, h3, h4⟩ := acceptCandidate_spec text s ec lt hacc
    refine ⟨h1, ?_, h4, ?_⟩
    · rw [h2, Nat.add_sub_cancel_left]
      exact h3
    · rw [hstep fuel tools, hs]
      show extract_all_F fuel (tools ++ [lt])
          (text.take lt.startIdx ++ text.drop lt.endIdx) =
        extract_all_F fuel (tools ++ [lt])
          (text.take s ++ text.drop lt.endIdx)
      rw [h1]
  · intro fuel tools hn
    rw [hstep fuel tools, hn]
  · intro fuel tools t hnone
    show (match leakedSearch t with
          | none => (tools, t)
          | some (s', e') =>
            match extract_single_leaked_tool t s' with
            | some lt =>
              extract_all_F fuel (tools ++ [lt])
                (t.take lt.startIdx ++ t.drop lt.endIdx)
            | none =>
              extract_all_F fuel tools
                (t.take s' ++ sentinelUnparseable ++ t.drop e')) = _
    rw [hnone]

/-- Witness for **C2** at a concrete leaked tool call: the anchor sits at
index 3, the first candidate end (the inner dict's `}`) fails to parse
under all six strategies, the second parses directly, and exactly the span
`[3, 59)` is removed. -/
theorem leaked_tool_extraction_witness :
    extract_all_leaked_tools
        "Hi \x7b'id': 'toolu_01A', 'input': \x7b'q': 1\x7d, 'name': 'search'\x7d bye".data =
      ([{ id := "toolu_01A".data, name := PyVal.str "search".data,
          input := PyVal.dict [(PyVal.str "q".data, PyVal.int 1)],
          ty := PyVal.str "tool_use".data,
          raw := "\x7b'id': 'toolu_01A', 'input': \x7b'q': 1\x7d, 'name': 'search'\x7d".data,
          startIdx := 3, endIdx := 59 }], "Hi  bye".data) := by
  show extract_all_F (127 + 1) []
      "Hi \x7b'id': 'toolu_01A', 'input': \x7b'q': 1\x7d, 'name': 'search'\x7d bye".data = _
  rw [((leaked_tool_extraction
      "Hi \x7b'id': 'toolu_01A', 'input': \x7b'q': 1\x7d, 'name': 'search'\x7d bye".data
      3 17 (by rfl)).2.2.2.2.1 127 []
      { id := "toolu_01A".data, name := PyVal.str "search".data,
        input := PyVal.dict [(PyVal.str "q".data, PyVal.int 1)],
        ty := PyVal.str "tool_use".data,
        raw := "\x7b'id': 'toolu_01A', 'input': \x7b'q': 1\x7d, 'name': 'search'\x7d".data,
        startIdx := 3, endIdx := 59 }
      (by rfl)).2.2.2]
  rfl

end ArgoProxy
